import Mathlib

/-!
Shallow embedding of the MongoDB mini-toolz server (`src/public/js/client.js`,
server part): the three job handlers (`POST /api/backup`, `/api/transfer`,
`/api/upload`), their batch loops, the progress-payload arithmetic, the
cleanup registry (`scheduleCleanup`) and the batch-size determination
(`parseInt(req.body.batchSize, 10) || 1000`).

Documents are opaque (`Doc := Nat`); time is an oracle `Nat → ℚ` giving the
value of `(Date.now() - start) / 1000` at each batch step; store faults are
injected through explicit fault fields on the per-collection inputs.  Events
and store actions are recorded in a single ordered trace.
-/

namespace MiniToolz

/-- Documents are opaque values; their JSON contents never matter to the
orchestrators. -/
abbrev Doc := Nat

/-- JavaScript `Math.round` on an exact rational: round half toward +∞. -/
def jsRound (q : ℚ) : ℤ := (q + 1/2).floor

/-- `Math.max(1, (Date.now() - start) / 1000)` where `el` is the elapsed
seconds oracle value. -/
def elapsedSecOf (el : ℚ) : ℚ := max 1 el

/-- `Math.round(done / elapsedSec)` — docs per second. -/
def speedOf (done : Nat) (el : ℚ) : ℤ := jsRound ((done : ℚ) / elapsedSecOf el)

/-- The percent ternary shared by all three handlers:
`totalDocs ? Math.min(100, Math.round((done / totalDocs) * 100)) : null`
(a zero `totalDocs` is falsy). -/
def jsPercent (done total : Nat) : Option ℤ :=
  if total = 0 then none
  else some (min 100 (jsRound ((done : ℚ) / (total : ℚ) * 100)))

/-- The etaSec ternary shared by all three handlers:
`totalDocs && speed ? Math.max(0, Math.round((totalDocs - done) / speed)) : null`. -/
def jsEta (done total : Nat) (speed : ℤ) : Option ℤ :=
  if total = 0 ∨ speed = 0 then none
  else some (max 0 (jsRound (((total : ℚ) - (done : ℚ)) / (speed : ℚ))))

/-- Upload-mode percent: `totalDocs` is `null` when the line-count pre-pass
failed; both `null` and `0` are falsy in the ternary. -/
def jsPercentN (done : Nat) : Option Nat → Option ℤ
  | none => none
  | some t => jsPercent done t

/-- Upload-mode etaSec with nullable `totalDocs`. -/
def jsEtaN (done : Nat) (total : Option Nat) (speed : ℤ) : Option ℤ :=
  match total with
  | none => none
  | some t => jsEta done t speed

/-- Push-channel events.  One constructor family serves all three modes
(`backup-*` / `transfer-*` / `upload-*`); the `n` of `collectionDone` is the
`index` (backup/transfer) or `importedCount` (upload) field of the payload. -/
inductive Event where
  | jobStart (totalCollections : Nat) (collections : List String)
  | collectionStart (collection : String) (index : Nat) (totalDocs : Option Nat)
  | progress (collection : String) (done : Nat) (totalDocs : Option Nat)
      (percent : Option ℤ) (speed : ℤ) (etaSec : Option ℤ)
  | collectionDone (collection : String) (n : Nat)
  | jobDone
  | jobError (message : String)
deriving DecidableEq, Repr

/-- Store / filesystem operations performed by a handler. -/
inductive Action where
  | connect
  | writeBatch (coll : String) (batch : List Doc)
  | deleteMany (coll : String)
  | insertMany (coll : String) (batch : List Doc)
  | zipArchive
  | extract
  | registerCleanup (p : String)
  | fsRemove (p : String)
deriving DecidableEq, Repr

/-- One entry of the combined ordered trace: an emitted event or a performed
store/filesystem action. -/
inductive Item where
  | ev (e : Event)
  | act (a : Action)
deriving DecidableEq, Repr

/-- `emitProgress(socketId, event, payload)`: drops the event when
`socketId` is unset. -/
def emitTo (sid : Option String) (e : Event) : List Item :=
  match sid with
  | none => []
  | some _ => [Item.ev e]

/-- The events of a trace. -/
def eventsOf (tr : List Item) : List Event :=
  tr.filterMap fun i => match i with | Item.ev e => some e | Item.act _ => none

/-- The actions of a trace. -/
def actionsOf (tr : List Item) : List Action :=
  tr.filterMap fun i => match i with | Item.ev _ => none | Item.act a => some a

/-- The batches passed to `insertMany` along a trace, in order. -/
def insertsOf (tr : List Item) : List (List Doc) :=
  tr.filterMap fun i =>
    match i with
    | Item.act (Action.insertMany _ b) => some b
    | _ => none

/-- The non-null `percent` values of the progress events of a trace,
in order. -/
def progressPercents (tr : List Item) : List ℤ :=
  tr.filterMap fun i =>
    match i with
    | Item.ev (Event.progress _ _ _ (some p) _ _) => some p
    | _ => none

/-- Statement vocabulary: every progress event of the trace carries
`percent = null` and `etaSec = null`. -/
def ProgressNull (tr : List Item) : Prop :=
  ∀ (nm : String) (dn : Nat) (tt : Option Nat) (p : Option ℤ) (sp : ℤ)
    (eta : Option ℤ),
    Item.ev (Event.progress nm dn tt p sp eta) ∈ tr → p = none ∧ eta = none

/-- Statement vocabulary: every progress event of the trace reports the
fixed known total `t` and the percent `min(100, round(done/t*100))` for
its own `done` value. -/
def PercentFormula (t : Nat) (tr : List Item) : Prop :=
  ∀ (nm : String) (dn : Nat) (tt : Option Nat) (p : Option ℤ) (sp : ℤ)
    (eta : Option ℤ),
    Item.ev (Event.progress nm dn tt p sp eta) ∈ tr →
      tt = some t ∧ p = some (min 100 (jsRound ((dn : ℚ) / (t : ℚ) * 100)))

/-- Result of running a handler fragment: its trace plus a normal value or a
thrown error message. -/
structure Tr (β : Type) where
  trace : List Item
  res : Except String β
deriving Repr

/-- Sequencing with exception propagation: the JS `await`-and-throw
discipline inside one `try` block. -/
def Tr.seq {α β : Type} (a : Tr α) (f : α → Tr β) : Tr β :=
  match a.res with
  | Except.error e => ⟨a.trace, Except.error e⟩
  | Except.ok x => let b := f x; ⟨a.trace ++ b.trace, b.res⟩

/-- The batch pull loop shared by backup and transfer
(`while (await cursor.hasNext()) { const batch = []; for (...) ... }`):
the sequence of batches the cursor loop produces for a collection of `docs`,
batch size `N`.  Faithful for `N ≥ 1` (the source loops forever on `N ≤ 0`). -/
def cursorBatches (N : Nat) : List Doc → List (List Doc)
  | [] => []
  | d :: rest => (d :: rest.take (N - 1)) :: cursorBatches N (rest.drop (N - 1))
termination_by docs => docs.length
decreasing_by simp only [List.length_drop, List.length_cons]; omega

/-- One source collection as the backup handler sees it: its name, the
result of `countDocuments()` (an `error` is caught and replaced by `0`),
the documents its cursor yields, and an injected cursor fault —
`failAfter = some k` makes `hasNext()` throw once `k` documents have been
yielded (no fault if `k` is at least the collection size). -/
structure BColl where
  name : String
  countRes : Except Unit Nat
  docs : List Doc
  failAfter : Option Nat

/-- `let totalDocs = 0; try { totalDocs = await coll.countDocuments() }
catch (e) { totalDocs = 0 }`. -/
def bTotal (c : BColl) : Nat :=
  match c.countRes with
  | Except.ok n => n
  | Except.error _ => 0

/-- The documents the cursor will yield before either ending normally
(`false`) or throwing (`true`). -/
def cursorYield (docs : List Doc) (failAfter : Option Nat) : List Doc × Bool :=
  match failAfter with
  | none => (docs, false)
  | some k => if k < docs.length then (docs.take k, true) else (docs, false)

/-- The backup per-collection batch loop
(`while (await cursor.hasNext()) { ... ws.write ... emitProgress("backup-progress", ...) }`).
`step` indexes the elapsed-time oracle `el`, `done` is the running
`docsDone`; `wf` records that the cursor throws once `docs` is exhausted.
A throw that happens inside a batch pull (fewer than `N` docs remain)
aborts before the batch is written or reported. -/
def backupLoop (sid : Option String) (N t : Nat) (name : String) (el : Nat → ℚ)
    (step done : Nat) : List Doc → Bool → Tr Nat
  | [], wf =>
    if wf then ⟨[], Except.error "cursor error"⟩ else ⟨[], Except.ok done⟩
  | d :: rest, wf =>
    if (d :: rest).length < N ∧ wf then ⟨[], Except.error "cursor error"⟩
    else
      let batch := d :: rest.take (N - 1)
      let done' := done + batch.length
      let speed := speedOf done' (el step)
      let body := backupLoop sid N t name el (step + 1) done' (rest.drop (N - 1)) wf
      ⟨Item.act (Action.writeBatch name batch) ::
          (emitTo sid (Event.progress name done' (some t)
            (jsPercent done' t) speed (jsEta done' t speed)) ++ body.trace),
        body.res⟩
termination_by docs => docs.length
decreasing_by simp only [List.length_drop, List.length_cons]; omega

/-- Backup handling of one collection: count (caught), open the writer,
emit `backup-collection-start`, run the batch loop, and on success emit
`backup-collection-done` with the post-increment index. -/
def runBColl (sid : Option String) (N : Nat) (el : Nat → ℚ) (idx : Nat)
    (c : BColl) : Tr Unit :=
  let t := bTotal c
  let yw := cursorYield c.docs c.failAfter
  let body := backupLoop sid N t c.name el 0 0 yw.1 yw.2
  match body.res with
  | Except.error m =>
    ⟨emitTo sid (Event.collectionStart c.name idx (some t)) ++ body.trace,
      Except.error m⟩
  | Except.ok _ =>
    ⟨emitTo sid (Event.collectionStart c.name idx (some t)) ++ body.trace ++
        emitTo sid (Event.collectionDone c.name (idx + 1)),
      Except.ok ()⟩

/-- The `for (const c of collections)` loop shape shared by the three modes:
process each element sequentially with its 0-based index, stopping at the
first thrown error. -/
def runSeq {α : Type} (f : Nat → α → Tr Unit) : Nat → List α → Tr Unit
  | _, [] => ⟨[], Except.ok ()⟩
  | idx, c :: rest => (f idx c).seq fun _ => runSeq f (idx + 1) rest

/-- The backup `for (const collInfo of collections)` loop, threading the
0-based `collIndex`. -/
def runBColls (sid : Option String) (N : Nat) (el : Nat → ℚ) :
    Nat → List BColl → Tr Unit :=
  runSeq (runBColl sid N el)

/-- A `POST /api/backup` request body (`{uri, dbName, socketId, batchSize}`);
absent fields are `none`. -/
structure BackupReq where
  uri : Option String
  dbName : Option String
  socketId : Option String

/-- The source store the backup job connects to: a fallible `connect`
followed by `listCollections`. -/
structure BackupStore where
  connect : Except String Unit
  collections : List BColl

/-- The observable outcome of one HTTP request: response status plus the
ordered trace of emitted events and performed store/filesystem actions. -/
structure HttpOut where
  status : Nat
  trace : List Item

/-- JavaScript falsiness of an optional string field (`undefined` or `""`). -/
def falsy : Option String → Bool
  | none => true
  | some s => s.isEmpty

/-- The `POST /api/backup` handler: validate `uri`/`dbName` (400),
connect, list collections, emit `backup-start`, run every collection
sequentially, zip and emit `backup-done` (200); any thrown error is caught,
emits a single `backup-error` and answers 500. -/
def backupHandler (req : BackupReq) (st : BackupStore) (N : Nat)
    (el : Nat → ℚ) : HttpOut :=
  if falsy req.uri ∨ falsy req.dbName then ⟨400, []⟩
  else
    match st.connect with
    | Except.error m =>
      ⟨500, Item.act Action.connect :: emitTo req.socketId (Event.jobError m)⟩
    | Except.ok _ =>
      match (runBColls req.socketId N el 0 st.collections).res with
      | Except.error m =>
        ⟨500, Item.act Action.connect ::
          (emitTo req.socketId (Event.jobStart st.collections.length
              (st.collections.map BColl.name)) ++
            ((runBColls req.socketId N el 0 st.collections).trace ++
              emitTo req.socketId (Event.jobError m)))⟩
      | Except.ok _ =>
        ⟨200, Item.act Action.connect ::
          (emitTo req.socketId (Event.jobStart st.collections.length
              (st.collections.map BColl.name)) ++
            ((runBColls req.socketId N el 0 st.collections).trace ++
              Item.act Action.zipArchive :: emitTo req.socketId Event.jobDone))⟩

/-- One collection as the transfer handler sees it: `countDocuments` result
(caught), the source cursor contents with an injected cursor fault, the
result of `deleteMany({})` on the destination, and an injected
`insertMany` fault (`insertFailAt = some k` makes the `k`-th insert call,
0-based, throw). -/
structure TColl where
  name : String
  countRes : Except Unit Nat
  docs : List Doc
  failAfter : Option Nat
  deleteRes : Except String Unit
  insertFailAt : Option Nat

/-- Caught `countDocuments` for transfer (identical to backup). -/
def tTotal (c : TColl) : Nat :=
  match c.countRes with
  | Except.ok n => n
  | Except.error _ => 0

/-- The transfer per-collection batch loop: pull a batch, `insertMany` it
into the destination, bump `transferred`, emit `transfer-progress`
(only after a non-empty batch is fully inserted). -/
def transferLoop (sid : Option String) (N t : Nat) (name : String)
    (el : Nat → ℚ) (insFail : Option Nat) (step done : Nat) :
    List Doc → Bool → Tr Nat
  | [], wf =>
    if wf then ⟨[], Except.error "cursor error"⟩ else ⟨[], Except.ok done⟩
  | d :: rest, wf =>
    if (d :: rest).length < N ∧ wf then ⟨[], Except.error "cursor error"⟩
    else
      let batch := d :: rest.take (N - 1)
      if insFail = some step then
        ⟨[Item.act (Action.insertMany name batch)], Except.error "insert error"⟩
      else
        let done' := done + batch.length
        let speed := speedOf done' (el step)
        let body := transferLoop sid N t name el insFail (step + 1) done'
          (rest.drop (N - 1)) wf
        ⟨Item.act (Action.insertMany name batch) ::
            (emitTo sid (Event.progress name done' (some t)
              (jsPercent done' t) speed (jsEta done' t speed)) ++ body.trace),
          body.res⟩
termination_by docs => docs.length
decreasing_by simp only [List.length_drop, List.length_cons]; omega

/-- Transfer handling of one collection: count (caught), `deleteMany` on the
destination (unconditional clear, fallible), emit
`transfer-collection-start`, run the batch loop, and on success emit
`transfer-collection-done` with the post-increment count. -/
def runTColl (sid : Option String) (N : Nat) (el : Nat → ℚ) (idx : Nat)
    (c : TColl) : Tr Unit :=
  let t := tTotal c
  match c.deleteRes with
  | Except.error m => ⟨[Item.act (Action.deleteMany c.name)], Except.error m⟩
  | Except.ok _ =>
    let yw := cursorYield c.docs c.failAfter
    let body := transferLoop sid N t c.name el c.insertFailAt 0 0 yw.1 yw.2
    match body.res with
    | Except.error m =>
      ⟨Item.act (Action.deleteMany c.name) ::
          (emitTo sid (Event.collectionStart c.name idx (some t)) ++ body.trace),
        Except.error m⟩
    | Except.ok _ =>
      ⟨Item.act (Action.deleteMany c.name) ::
          (emitTo sid (Event.collectionStart c.name idx (some t)) ++ body.trace ++
            emitTo sid (Event.collectionDone c.name (idx + 1))),
        Except.ok ()⟩

/-- The transfer `for (const c of collections)` loop, threading
`migratedCollections`. -/
def runTColls (sid : Option String) (N : Nat) (el : Nat → ℚ) :
    Nat → List TColl → Tr Unit :=
  runSeq (runTColl sid N el)

/-- A `POST /api/transfer` request body. -/
structure TransferReq where
  srcUri : Option String
  srcDb : Option String
  dstUri : Option String
  dstDb : Option String
  socketId : Option String

/-- The two stores of a transfer job. -/
structure TransferStore where
  srcConnect : Except String Unit
  dstConnect : Except String Unit
  collections : List TColl

/-- The `POST /api/transfer` handler: validate the four fields (400),
connect both clients, emit `transfer-start`, process every collection
sequentially, emit `transfer-done` (200); any thrown error is caught,
emits a single `transfer-error` and answers 500. -/
def transferHandler (req : TransferReq) (st : TransferStore) (N : Nat)
    (el : Nat → ℚ) : HttpOut :=
  if falsy req.srcUri ∨ falsy req.srcDb ∨ falsy req.dstUri ∨ falsy req.dstDb then
    ⟨400, []⟩
  else
    match st.srcConnect with
    | Except.error m =>
      ⟨500, Item.act Action.connect :: emitTo req.socketId (Event.jobError m)⟩
    | Except.ok _ =>
      match st.dstConnect with
      | Except.error m =>
        ⟨500, Item.act Action.connect :: Item.act Action.connect ::
          emitTo req.socketId (Event.jobError m)⟩
      | Except.ok _ =>
        match (runTColls req.socketId N el 0 st.collections).res with
        | Except.error m =>
          ⟨500, Item.act Action.connect :: Item.act Action.connect ::
            (emitTo req.socketId (Event.jobStart st.collections.length []) ++
              ((runTColls req.socketId N el 0 st.collections).trace ++
                emitTo req.socketId (Event.jobError m)))⟩
        | Except.ok _ =>
          ⟨200, Item.act Action.connect :: Item.act Action.connect ::
            (emitTo req.socketId (Event.jobStart st.collections.length []) ++
              ((runTColls req.socketId N el 0 st.collections).trace ++
                emitTo req.socketId Event.jobDone))⟩

/-- `while ((idx = buffer.indexOf("\n")) >= 0)`: split a character buffer
into the complete (terminator-ended) lines and the pending remainder that
received no terminator yet. -/
def extractLines : List Char → List (List Char) × List Char
  | [] => ([], [])
  | c :: rest =>
    let p := extractLines rest
    if c = '\n' then ([] :: p.1, p.2)
    else
      match p.1 with
      | [] => ([], c :: p.2)
      | l :: ls => ((c :: l) :: ls, p.2)

/-- The complete lines of a string, as strings (content after the last
`"\n"` is excluded). -/
def completeLines (s : String) : List String :=
  (extractLines s.data).1.map List.asString

/-- `countLinesStream`: count the `"\n"` characters of the file. -/
def countNewlines (cs : List Char) : Nat := cs.count '\n'

/-- `s.endsWith(suffix)` at the character-list level. -/
def strEndsWith (s suffix : String) : Bool :=
  List.isSuffixOf suffix.data s.data

/-- `f.replace(/\.(ndjson|json)$/, "")`: strip a trailing `.ndjson` or
`.json` extension. -/
def stripExt (f : String) : String :=
  if strEndsWith f ".ndjson" then List.asString (f.data.take (f.data.length - 7))
  else if strEndsWith f ".json" then List.asString (f.data.take (f.data.length - 5))
  else f

/-- `files.filter((f) => f.endsWith(".ndjson") || f.endsWith(".json"))`. -/
def isNdjson (f : String) : Bool :=
  strEndsWith f ".ndjson" || strEndsWith f ".json"

/-- JavaScript `String.prototype.trim` at the character-list level: strip
leading and trailing whitespace. -/
def jsTrim (cs : List Char) : List Char :=
  ((cs.dropWhile Char.isWhitespace).reverse.dropWhile Char.isWhitespace).reverse

/-- Statement vocabulary: the records an import run accepts from a list of
complete lines — trim each line, skip it when empty, keep it exactly when
`JSON.parse` succeeds. -/
def acceptedOf (parse : String → Option Doc) (lines : List (List Char)) :
    List Doc :=
  lines.filterMap fun l =>
    let t := jsTrim l
    if t.isEmpty then none else parse (List.asString t)

/-- Proof vocabulary: the accumulation mechanics of the import batch —
push each record onto the pending batch and hand the batch off whenever it
reaches `N`; returns the handed-off batches and the final pending batch. -/
def batchInserts (N : Nat) : List Doc → List Doc → List (List Doc) × List Doc
  | b, [] => ([], b)
  | b, d :: ds =>
    let b' := b ++ [d]
    if N ≤ b'.length then
      let p := batchInserts N [] ds
      (b' :: p.1, p.2)
    else batchInserts N b' ds

/-- Statement vocabulary: the trace emits no `*-error` event. -/
def NoError (tr : List Item) : Prop :=
  ∀ m : String, Item.ev (Event.jobError m) ∉ tr

/-- Statement vocabulary: the trace registers no deferred cleanup. -/
def NoCleanup (tr : List Item) : Prop :=
  ∀ p : String, Item.act (Action.registerCleanup p) ∉ tr

/-- Import-loop mutable state (the `buffer` variable is threaded
separately): the accumulation `docsBatch`, the running `importedCount`,
and the number of `insertMany` calls made so far (indexes the elapsed
oracle and the injected insert fault). -/
structure USt where
  batch : List Doc
  imported : Nat
  calls : Nat
deriving DecidableEq, Repr

/-- Handling of one complete line of an import file: trim, skip if empty,
`JSON.parse` (a failure silently skips the record), append to the batch;
when the batch reaches `N`, `insertMany` it, bump `importedCount` and emit
`upload-progress`. -/
def procLine (sid : Option String) (parse : String → Option Doc) (N : Nat)
    (collName : String) (total : Option Nat) (el : Nat → ℚ)
    (insFail : Option Nat) (line : List Char) (st : USt) : Tr USt :=
  let l := jsTrim line
  if l.isEmpty then ⟨[], Except.ok st⟩
  else
    match parse (List.asString l) with
    | none => ⟨[], Except.ok st⟩
    | some obj =>
      let batch' := st.batch ++ [obj]
      if N ≤ batch'.length then
        if insFail = some st.calls then
          ⟨[Item.act (Action.insertMany collName batch')],
            Except.error "insert error"⟩
        else
          let imported' := st.imported + batch'.length
          let speed := speedOf imported' (el st.calls)
          ⟨Item.act (Action.insertMany collName batch') ::
              emitTo sid (Event.progress collName imported' total
                (jsPercentN imported' total) speed (jsEtaN imported' total speed)),
            Except.ok ⟨[], imported', st.calls + 1⟩⟩
      else ⟨[], Except.ok ⟨batch', st.imported, st.calls⟩⟩

/-- Process a list of already-extracted complete lines in order. -/
def procLines (sid : Option String) (parse : String → Option Doc) (N : Nat)
    (collName : String) (total : Option Nat) (el : Nat → ℚ)
    (insFail : Option Nat) : List (List Char) → USt → Tr USt
  | [], st => ⟨[], Except.ok st⟩
  | l :: ls, st =>
    (procLine sid parse N collName total el insFail l st).seq
      (procLines sid parse N collName total el insFail ls)

/-- `for await (const chunk of rs)` with the inner
`while ((idx = buffer.indexOf("\n")) >= 0)` loop: on each chunk, extend
the buffer, extract and process every complete line, and keep the
remainder as the new buffer; at stream end the pending buffer is dropped
unparsed. -/
def procChunks (sid : Option String) (parse : String → Option Doc) (N : Nat)
    (collName : String) (total : Option Nat) (el : Nat → ℚ)
    (insFail : Option Nat) : List String → List Char → USt → Tr USt
  | [], _, st => ⟨[], Except.ok st⟩
  | ch :: chs, buf, st =>
    let p := extractLines (buf ++ ch.data)
    (procLines sid parse N collName total el insFail p.1 st).seq
      (procChunks sid parse N collName total el insFail chs p.2)

/-- `if (docsBatch.length) { await dst.insertMany(docsBatch); ... }` after
the stream closes: flush the trailing sub-threshold batch once; the
pending partial buffer is dropped.  Returns the final `importedCount`. -/
def finishFile (sid : Option String) (collName : String)
    (total : Option Nat) (el : Nat → ℚ) (insFail : Option Nat)
    (st : USt) : Tr Nat :=
  if st.batch.isEmpty then ⟨[], Except.ok st.imported⟩
  else
    if insFail = some st.calls then
      ⟨[Item.act (Action.insertMany collName st.batch)],
        Except.error "insert error"⟩
    else
      let imported' := st.imported + st.batch.length
      let speed := speedOf imported' (el st.calls)
      ⟨Item.act (Action.insertMany collName st.batch) ::
          emitTo sid (Event.progress collName imported' total
            (jsPercentN imported' total) speed (jsEtaN imported' total speed)),
        Except.ok imported'⟩

/-- Proof vocabulary for the import percent monotonicity: relative to a
fixed known total `t`, a pipeline stage run from state `st` reports
percent values that are bounded below by the percent of the starting
`importedCount`, non-decreasing, and — whenever the stage succeeds —
bounded above by the percent of the final `importedCount`, which is at
least the starting one. -/
def ImportChain (t : Nat) (st : USt) (r : Tr USt) : Prop :=
  (∀ x ∈ progressPercents r.trace,
    min 100 (jsRound ((st.imported : ℚ) / (t : ℚ) * 100)) ≤ x) ∧
  List.Chain' (· ≤ ·) (progressPercents r.trace) ∧
  ∀ st2, r.res = Except.ok st2 →
    st.imported ≤ st2.imported ∧
    ∀ x ∈ progressPercents r.trace,
      x ≤ min 100 (jsRound ((st2.imported : ℚ) / (t : ℚ) * 100))

/-- One `.ndjson`/`.json` file of the extracted upload: its stream chunks,
whether the `countLinesStream` pre-pass succeeds, the result of
`deleteMany({})`, and an injected `insertMany` fault. -/
structure UFile where
  name : String
  chunks : List String
  countOk : Bool
  deleteRes : Except String Unit
  insertFailAt : Option Nat

/-- The whole file content: the concatenation of the stream's chunks. -/
def fileData (f : UFile) : List Char := (f.chunks.map String.data).flatten

/-- `totalDocs` estimation for an import file: `null` when the pre-pass
fails, the newline count of the whole file otherwise. -/
def uTotal (f : UFile) : Option Nat :=
  if f.countOk then some (countNewlines (fileData f)) else none

/-- Import handling of one file: `deleteMany` the destination collection
(fallible), count lines (caught), emit `upload-collection-start`, stream
the chunks through the line parser, flush the trailing batch, and on
success emit `upload-collection-done` carrying `importedCount`. -/
def runUFile (sid : Option String) (parse : String → Option Doc) (N : Nat)
    (el : Nat → ℚ) (idx : Nat) (f : UFile) : Tr Unit :=
  let collName := stripExt f.name
  match f.deleteRes with
  | Except.error m => ⟨[Item.act (Action.deleteMany collName)], Except.error m⟩
  | Except.ok _ =>
    let total := uTotal f
    let body := (procChunks sid parse N collName total el f.insertFailAt
        f.chunks [] ⟨[], 0, 0⟩).seq
      (finishFile sid collName total el f.insertFailAt)
    match body.res with
    | Except.error m =>
      ⟨Item.act (Action.deleteMany collName) ::
          (emitTo sid (Event.collectionStart collName idx total) ++ body.trace),
        Except.error m⟩
    | Except.ok imported =>
      ⟨Item.act (Action.deleteMany collName) ::
          (emitTo sid (Event.collectionStart collName idx total) ++ body.trace ++
            emitTo sid (Event.collectionDone collName imported)),
        Except.ok ()⟩

/-- The import `for (const f of ndjsonFiles)` loop, threading
`importedCollections`. -/
def runUFiles (sid : Option String) (parse : String → Option Doc) (N : Nat)
    (el : Nat → ℚ) : Nat → List UFile → Tr Unit :=
  runSeq (runUFile sid parse N el)

/-- A `POST /api/upload` multipart request: `file` is the uploaded temp
path when present; `uri`, `dbName`, `socketId` are body fields. -/
structure UploadReq where
  file : Option String
  uri : Option String
  dbName : Option String
  socketId : Option String

/-- The upload job environment: the result of unzip extraction, the
destination connect, and the extracted directory entries. -/
structure UploadStore where
  extractRes : Except String Unit
  connect : Except String Unit
  files : List UFile

/-- The `POST /api/upload` handler.  Only `req.file` is validated (400);
`uri` and `dbName` are not checked — a falsy `uri` makes the
`new MongoClient(uri)` constructor throw inside the outer `try`, which is
answered with 500 and a single `upload-error` event.  On success the
handler registers cleanup of the extracted directory and the uploaded
file and then emits `upload-done`; the `finally` block always removes the
uploaded file immediately. -/
def uploadHandler (req : UploadReq) (st : UploadStore)
    (parse : String → Option Doc) (N : Nat) (el : Nat → ℚ)
    (extractDir : String) : HttpOut :=
  match req.file with
  | none => ⟨400, []⟩
  | some fp =>
    match st.extractRes with
    | Except.error m =>
      ⟨500, Item.act Action.extract ::
        (emitTo req.socketId (Event.jobError m) ++ [Item.act (Action.fsRemove fp)])⟩
    | Except.ok _ =>
      if falsy req.uri then
        ⟨500, Item.act Action.extract ::
          (emitTo req.socketId (Event.jobError "Invalid connection string") ++
            [Item.act (Action.fsRemove fp)])⟩
      else
        match st.connect with
        | Except.error m =>
          ⟨500, Item.act Action.extract :: Item.act Action.connect ::
            (emitTo req.socketId (Event.jobError m) ++
              [Item.act (Action.fsRemove fp)])⟩
        | Except.ok _ =>
          match (runUFiles req.socketId parse N el 0
              (st.files.filter fun f => isNdjson f.name)).res with
          | Except.error m =>
            ⟨500, Item.act Action.extract :: Item.act Action.connect ::
              (emitTo req.socketId (Event.jobStart
                  (st.files.filter fun f => isNdjson f.name).length []) ++
                ((runUFiles req.socketId parse N el 0
                    (st.files.filter fun f => isNdjson f.name)).trace ++
                  (emitTo req.socketId (Event.jobError m) ++
                    [Item.act (Action.fsRemove fp)])))⟩
          | Except.ok _ =>
            ⟨200, Item.act Action.extract :: Item.act Action.connect ::
              (emitTo req.socketId (Event.jobStart
                  (st.files.filter fun f => isNdjson f.name).length []) ++
                ((runUFiles req.socketId parse N el 0
                    (st.files.filter fun f => isNdjson f.name)).trace ++
                  (Item.act (Action.registerCleanup extractDir) ::
                    Item.act (Action.registerCleanup fp) ::
                    (emitTo req.socketId Event.jobDone ++
                      [Item.act (Action.fsRemove fp)]))))⟩

/-- The process-wide cleanup registry: the pending map `scheduledCleanups`,
keyed by absolute path, remembering each entry's TTL. -/
abbrev Registry := List (String × Nat)

/-- `scheduleCleanup(absPath, ttlMs)`: a no-op when the path is already
registered and pending, otherwise register a one-shot deferred delete. -/
def scheduleCleanup (reg : Registry) (p : String) (ttl : Nat) : Registry :=
  if (reg.map Prod.fst).contains p then reg else reg ++ [(p, ttl)]

/-- The timer callback firing for path `p`: attempt `fs.remove` (whose
success `removeOk` only affects a log line), then delete the key from the
registry unconditionally. -/
def fireCleanup (reg : Registry) (p : String) (removeOk : Bool) : Registry :=
  reg.filter fun e => ¬ e.1 = p

/-- `parseInt(s, 10)` on a decimal string: skip leading whitespace, an
optional sign, then the leading digit run; `none` is `NaN`. -/
def parseDigits (cs : List Char) : Option Nat :=
  let ds := cs.takeWhile Char.isDigit
  if ds.isEmpty then none
  else some (ds.foldl (fun a c => a * 10 + (c.toNat - 48)) 0)

/-- `parseInt(req.body.batchSize, 10)` over the string form of the field. -/
def jsParseInt10 (s : String) : Option Int :=
  let cs := s.data.dropWhile Char.isWhitespace
  match cs with
  | '-' :: r => (parseDigits r).map fun n => -(n : ℤ)
  | '+' :: r => (parseDigits r).map fun n => (n : ℤ)
  | _ => (parseDigits cs).map fun n => (n : ℤ)

/-- `const BATCH_SIZE = parseInt(req.body.batchSize, 10) || 1000`:
`NaN` (absent or non-numeric) and `0` fall back to 1000; any other parsed
integer — negatives included — is used as-is. -/
def effBatchSize (bs : Option String) : Int :=
  match bs with
  | none => 1000
  | some s =>
    match jsParseInt10 s with
    | none => 1000
    | some v => if v = 0 then 1000 else v

/-- `jsRound` is the floor of `q + 1/2`. -/
theorem jsRound_eq_floor (q : ℚ) : jsRound q = ⌊q + 1/2⌋ := by
  rw [jsRound, Rat.floor_def', ← Rat.floor_def]

example : jsRound (5/2) = 3 := by rw [jsRound_eq_floor]; norm_num
example : jsRound (-(5/2)) = -2 := by rw [jsRound_eq_floor]; norm_num
example : jsPercent 1000 2500 = some 40 := by
  simp only [jsPercent, jsRound_eq_floor]; norm_num
example : jsPercent 7 0 = none := by simp [jsPercent]
example : jsEta 1000 2500 1000 = some 2 := by
  simp only [jsEta, jsRound_eq_floor]; norm_num

theorem cursorBatches_nil (N : Nat) : cursorBatches N [] = [] := by
  rw [cursorBatches]

theorem cursorBatches_cons (N : Nat) (d : Doc) (rest : List Doc) :
    cursorBatches N (d :: rest) =
      (d :: rest.take (N - 1)) :: cursorBatches N (rest.drop (N - 1)) := by
  rw [cursorBatches]

/-- Every batch is nonempty. -/
theorem cursorBatches_ne_nil (N : Nat) (docs : List Doc) :
    ∀ b ∈ cursorBatches N docs, b ≠ [] := by
  induction docs using cursorBatches.induct N with
  | case1 => simp [cursorBatches_nil]
  | case2 d rest ih =>
    intro b hb
    rw [cursorBatches_cons] at hb
    rcases List.mem_cons.mp hb with h | h
    · subst h; simp
    · exact ih b h

/-- Every batch has at most `N` records. -/
theorem cursorBatches_len_le (N : Nat) (hN : 1 ≤ N) (docs : List Doc) :
    ∀ b ∈ cursorBatches N docs, b.length ≤ N := by
  induction docs using cursorBatches.induct N with
  | case1 => simp [cursorBatches_nil]
  | case2 d rest ih =>
    intro b hb
    rw [cursorBatches_cons] at hb
    rcases List.mem_cons.mp hb with h | h
    · subst h
      simp only [List.length_cons, List.length_take]
      omega
    · exact ih b h

/-- The concatenation of the batches is the original record sequence:
each record is pulled exactly once, in order. -/
theorem cursorBatches_join (N : Nat) (docs : List Doc) :
    (cursorBatches N docs).flatten = docs := by
  induction docs using cursorBatches.induct N with
  | case1 => simp [cursorBatches_nil]
  | case2 d rest ih =>
    rw [cursorBatches_cons]
    simp only [List.flatten_cons, ih, List.cons_append, List.take_append_drop]

/-- The total of the batch lengths is the collection size. -/
theorem cursorBatches_sum_len (N : Nat) (docs : List Doc) :
    ((cursorBatches N docs).map List.length).sum = docs.length := by
  have h := congrArg List.length (cursorBatches_join N docs)
  simpa [List.length_flatten] using h

/-- Every batch except possibly the last has exactly `N` records. -/
theorem cursorBatches_dropLast_len (N : Nat) (hN : 1 ≤ N) (docs : List Doc) :
    ∀ b ∈ (cursorBatches N docs).dropLast, b.length = N := by
  induction docs using cursorBatches.induct N with
  | case1 => simp [cursorBatches_nil]
  | case2 d rest ih =>
    intro b hb
    rw [cursorBatches_cons] at hb
    rcases h0 : cursorBatches N (rest.drop (N - 1)) with _ | ⟨b2, tl⟩
    · rw [h0] at hb; simp at hb
    · rw [h0] at hb
      rcases List.mem_cons.mp (by simpa [List.dropLast] using hb) with h | h
      · subst h
        have hrest : rest.drop (N - 1) ≠ [] := by
          intro hcon
          rw [hcon, cursorBatches_nil] at h0
          exact List.noConfusion h0
        have hlen : N - 1 ≤ rest.length := by
          by_contra hcon
          exact hrest (List.drop_eq_nil_of_le (le_of_not_le hcon))
        simp only [List.length_cons, List.length_take, min_eq_left hlen]
        omega
      · exact ih b (by rw [h0]; exact h)

example : effBatchSize (some "250") = 250 := by decide
example : effBatchSize (some "abc") = 1000 := by decide
example : effBatchSize (some "0") = 1000 := by decide
example : effBatchSize (some "-5") = -5 := by decide
example : effBatchSize (some " 42x") = 42 := by decide

/-- C10: on each of the three job routes, the effective batch size is 1000
when the `batchSize` field is absent, non-numeric, or parses to 0, and is
otherwise the parsed integer used as-is — with no lower bound enforced, so
a negative parsed value (such as "-5") is accepted unchanged. -/
theorem claim_C10 :
    effBatchSize none = 1000 ∧
    (∀ s : String, jsParseInt10 s = none → effBatchSize (some s) = 1000) ∧
    (∀ s : String, jsParseInt10 s = some 0 → effBatchSize (some s) = 1000) ∧
    (∀ (s : String) (v : ℤ), jsParseInt10 s = some v → v ≠ 0 →
      effBatchSize (some s) = v) ∧
    effBatchSize (some "-5") = -5 ∧ ¬ 1 ≤ effBatchSize (some "-5") := by
  refine ⟨rfl, ?_, ?_, ?_, by decide, by decide⟩
  · intro s h; simp [effBatchSize, h]
  · intro s h; simp [effBatchSize, h]
  · intro s v h hv; simp [effBatchSize, h, hv]

/-- C10 witness: "-5" parses to -5 ≠ 0 and is used unchanged. -/
theorem claim_C10_witness :
    jsParseInt10 "-5" = some (-5) ∧ effBatchSize (some "-5") = -5 :=
  ⟨by decide, claim_C10.2.2.2.1 "-5" (-5) (by decide) (by decide)⟩

/-- C9: `scheduleCleanup` on a path that is already registered and pending
is a no-op — exactly one pending entry exists, keeping its original TTL —
and firing removes the key regardless of whether the deletion succeeded,
after which the same path can be scheduled anew. -/
theorem claim_C9 :
    (∀ (reg : Registry) (p : String) (ttl : Nat),
      p ∈ reg.map Prod.fst → scheduleCleanup reg p ttl = reg) ∧
    (∀ (reg : Registry) (p : String) (t1 t2 : Nat),
      p ∉ reg.map Prod.fst →
        scheduleCleanup (scheduleCleanup reg p t1) p t2 =
          scheduleCleanup reg p t1 ∧
        (scheduleCleanup reg p t1).filter (fun e => e.1 == p) = [(p, t1)]) ∧
    (∀ (reg : Registry) (p : String) (removed : Bool),
      p ∉ (fireCleanup reg p removed).map Prod.fst) ∧
    (∀ (reg : Registry) (p : String),
      fireCleanup reg p true = fireCleanup reg p false) ∧
    (∀ (reg : Registry) (p : String) (removed : Bool) (ttl : Nat),
      scheduleCleanup (fireCleanup reg p removed) p ttl =
        fireCleanup reg p removed ++ [(p, ttl)]) := by
  have hc : ∀ (reg : Registry) (p : String),
      (reg.map Prod.fst).contains p = true ↔ p ∈ reg.map Prod.fst := by
    intro reg p; exact List.elem_iff
  have hfire : ∀ (reg : Registry) (p : String) (removed : Bool),
      p ∉ (fireCleanup reg p removed).map Prod.fst := by
    intro reg p removed hmem
    rcases List.mem_map.mp hmem with ⟨e, he, hfst⟩
    rcases List.mem_filter.mp he with ⟨_, hne⟩
    simp only [decide_eq_true_eq] at hne
    exact hne hfst
  refine ⟨?_, ?_, hfire, ?_, ?_⟩
  · intro reg p ttl h
    unfold scheduleCleanup
    rw [if_pos ((hc reg p).mpr h)]
  · intro reg p t1 t2 h
    have h1 : ¬ (reg.map Prod.fst).contains p = true := by
      rw [hc]; exact h
    have hstep : scheduleCleanup reg p t1 = reg ++ [(p, t1)] := by
      unfold scheduleCleanup; rw [if_neg h1]
    have hmem2 : p ∈ (reg ++ [(p, t1)]).map Prod.fst := by
      refine List.mem_map.mpr ⟨(p, t1), ?_, rfl⟩
      simp
    constructor
    · rw [hstep]
      unfold scheduleCleanup
      rw [if_pos ((hc _ p).mpr hmem2)]
    · rw [hstep, List.filter_append]
      have hreg : reg.filter (fun e => e.1 == p) = [] := by
        rw [List.filter_eq_nil_iff]
        intro e he hbeq
        exact h (List.mem_map.mpr ⟨e, he, beq_iff_eq.mp hbeq⟩)
      simp [hreg]
  · intro reg p; rfl
  · intro reg p removed ttl
    have h1 : ¬ ((fireCleanup reg p removed).map Prod.fst).contains p = true := by
      rw [hc]; exact hfire reg p removed
    unfold scheduleCleanup
    rw [if_neg h1]

/-- C9 witness: scheduling "/tmp/a" twice on a registry where it is pending
keeps the single original entry. -/
theorem claim_C9_witness :
    "/tmp/a" ∈ ([("/tmp/a", 60)] : Registry).map Prod.fst ∧
    scheduleCleanup [("/tmp/a", 60)] "/tmp/a" 90 = [("/tmp/a", 60)] :=
  ⟨by decide, claim_C9.1 [("/tmp/a", 60)] "/tmp/a" 90 (by decide)⟩

theorem eventsOf_append (a b : List Item) :
    eventsOf (a ++ b) = eventsOf a ++ eventsOf b :=
  List.filterMap_append a b _

theorem actionsOf_append (a b : List Item) :
    actionsOf (a ++ b) = actionsOf a ++ actionsOf b :=
  List.filterMap_append a b _

theorem insertsOf_append (a b : List Item) :
    insertsOf (a ++ b) = insertsOf a ++ insertsOf b :=
  List.filterMap_append a b _

theorem progressPercents_append (a b : List Item) :
    progressPercents (a ++ b) = progressPercents a ++ progressPercents b :=
  List.filterMap_append a b _

theorem actionsOf_emitTo (sid : Option String) (e : Event) (l : List Item) :
    actionsOf (emitTo sid e ++ l) = actionsOf l := by
  cases sid <;> simp [emitTo, actionsOf]

theorem insertsOf_emitTo (sid : Option String) (e : Event) (l : List Item) :
    insertsOf (emitTo sid e ++ l) = insertsOf l := by
  cases sid <;> simp [emitTo, insertsOf]

theorem eventsOf_emitTo (sid : Option String) (e : Event) (l : List Item) :
    eventsOf (emitTo sid e ++ l) = eventsOf (emitTo sid e) ++ eventsOf l := by
  cases sid <;> simp [emitTo, eventsOf]

theorem actionsOf_act_cons (a : Action) (l : List Item) :
    actionsOf (Item.act a :: l) = a :: actionsOf l := by
  simp [actionsOf]

theorem actionsOf_ev_cons (e : Event) (l : List Item) :
    actionsOf (Item.ev e :: l) = actionsOf l := by
  simp [actionsOf]

theorem eventsOf_act_cons (a : Action) (l : List Item) :
    eventsOf (Item.act a :: l) = eventsOf l := by
  simp [eventsOf]

theorem eventsOf_ev_cons (e : Event) (l : List Item) :
    eventsOf (Item.ev e :: l) = e :: eventsOf l := by
  simp [eventsOf]

/-- In a fault-free run, the backup batch loop writes exactly the cursor
batches to the output file, in order. -/
theorem backupLoop_writes (sid : Option String) (N t : Nat) (name : String)
    (el : Nat → ℚ) :
    ∀ (docs : List Doc) (step done : Nat),
      actionsOf (backupLoop sid N t name el step done docs false).trace =
        (cursorBatches N docs).map (Action.writeBatch name) := by
  intro docs
  induction docs using cursorBatches.induct N with
  | case1 =>
    intro step done
    simp [backupLoop, cursorBatches, actionsOf]
  | case2 d rest ih =>
    intro step done
    rw [backupLoop, cursorBatches]
    simp only [Bool.false_eq_true, and_false, if_false]
    rw [actionsOf_act_cons, actionsOf_emitTo, ih]
    simp

/-- In a fault-free run, the transfer batch loop inserts exactly the
cursor batches into the destination, in order. -/
theorem transferLoop_inserts (sid : Option String) (N t : Nat) (name : String)
    (el : Nat → ℚ) :
    ∀ (docs : List Doc) (step done : Nat),
      actionsOf (transferLoop sid N t name el none step done docs false).trace =
        (cursorBatches N docs).map (Action.insertMany name) := by
  intro docs
  induction docs using cursorBatches.induct N with
  | case1 =>
    intro step done
    simp [transferLoop, cursorBatches, actionsOf]
  | case2 d rest ih =>
    intro step done
    rw [transferLoop, cursorBatches]
    simp only [Bool.false_eq_true, and_false, if_false, reduceCtorEq, if_false]
    rw [actionsOf_act_cons, actionsOf_emitTo, ih]
    simp

/-- C6: for a collection of `M` records and any batch size `N ≥ 1`, the
batch loop produces an ordered sequence of batches, each nonempty and of
at most `N` records, every batch but the last of exactly `N`; their
concatenation is the record sequence itself (each record pulled exactly
once, in order), so the lengths sum to `M`; and the fault-free backup and
transfer loops respectively write / insert exactly these batches. -/
theorem claim_C6 (N : Nat) (hN : 1 ≤ N) (docs : List Doc) :
    (∀ b ∈ cursorBatches N docs, 1 ≤ b.length ∧ b.length ≤ N) ∧
    (∀ b ∈ (cursorBatches N docs).dropLast, b.length = N) ∧
    (cursorBatches N docs).flatten = docs ∧
    ((cursorBatches N docs).map List.length).sum = docs.length ∧
    (∀ (sid : Option String) (t : Nat) (name : String) (el : Nat → ℚ)
        (step done : Nat),
      actionsOf (backupLoop sid N t name el step done docs false).trace =
        (cursorBatches N docs).map (Action.writeBatch name)) ∧
    (∀ (sid : Option String) (t : Nat) (name : String) (el : Nat → ℚ)
        (step done : Nat),
      actionsOf (transferLoop sid N t name el none step done docs false).trace =
        (cursorBatches N docs).map (Action.insertMany name)) := by
  refine ⟨?_, cursorBatches_dropLast_len N hN docs, cursorBatches_join N docs,
    cursorBatches_sum_len N docs,
    fun sid t name el step done => backupLoop_writes sid N t name el docs step done,
    fun sid t name el step done => transferLoop_inserts sid N t name el docs step done⟩
  intro b hb
  refine ⟨?_, cursorBatches_len_le N hN docs b hb⟩
  have := cursorBatches_ne_nil N docs b hb
  cases b with
  | nil => exact absurd rfl this
  | cons x xs => simp

/-- C6 witness: batch size 2 over a 3-record collection. -/
theorem claim_C6_witness :
    1 ≤ 2 ∧ (cursorBatches 2 [10, 20, 30]).flatten = [10, 20, 30] :=
  ⟨by decide, (claim_C6 2 (by decide) [10, 20, 30]).2.2.1⟩

theorem jsPercent_zero (d : Nat) : jsPercent d 0 = none := by
  simp [jsPercent]

theorem jsEta_zero (d : Nat) (s : ℤ) : jsEta d 0 s = none := by
  simp [jsEta]

theorem progressNull_nil : ProgressNull [] := by
  intro nm dn tt p sp eta h
  simp at h

theorem progressNull_append {a b : List Item} (ha : ProgressNull a)
    (hb : ProgressNull b) : ProgressNull (a ++ b) := by
  intro nm dn tt p sp eta h
  rcases List.mem_append.mp h with h1 | h1
  · exact ha nm dn tt p sp eta h1
  · exact hb nm dn tt p sp eta h1

theorem progressNull_act_cons {l : List Item} (a : Action)
    (hl : ProgressNull l) : ProgressNull (Item.act a :: l) := by
  intro nm dn tt p sp eta h
  rcases List.mem_cons.mp h with h1 | h1
  · exact absurd h1 (by simp)
  · exact hl nm dn tt p sp eta h1

theorem progressNull_emitTo {sid : Option String} {e : Event}
    (he : ∀ (nm : String) (dn : Nat) (tt : Option Nat) (p : Option ℤ) (sp : ℤ)
      (eta : Option ℤ), e = Event.progress nm dn tt p sp eta →
        p = none ∧ eta = none) :
    ProgressNull (emitTo sid e) := by
  intro nm dn tt p sp eta h
  cases sid with
  | none => simp [emitTo] at h
  | some s =>
    simp only [emitTo, List.mem_singleton] at h
    exact he nm dn tt p sp eta (Item.ev.inj h).symm

/-- With an unknown total (`totalDocs = 0`) the backup batch loop only ever
emits null percent and null etaSec. -/
theorem backupLoop_null (sid : Option String) (N : Nat) (name : String)
    (el : Nat → ℚ) :
    ∀ (docs : List Doc) (wf : Bool) (step done : Nat),
      ProgressNull (backupLoop sid N 0 name el step done docs wf).trace := by
  intro docs
  induction docs using cursorBatches.induct N with
  | case1 =>
    intro wf step done
    rw [backupLoop]
    cases wf <;> simp <;> exact progressNull_nil
  | case2 d rest ih =>
    intro wf step done
    rw [backupLoop]
    by_cases hc : (d :: rest).length < N ∧ wf = true
    · rw [if_pos hc]; exact progressNull_nil
    · rw [if_neg hc]
      refine progressNull_act_cons _ (progressNull_append ?_ (ih wf _ _))
      refine progressNull_emitTo ?_
      intro nm dn tt p sp eta he
      rcases Event.progress.inj he with ⟨_, _, _, hp, _, heta⟩
      exact ⟨by rw [← hp, jsPercent_zero], by rw [← heta, jsEta_zero]⟩

theorem progressNull_seq {α β : Type} {a : Tr α} {f : α → Tr β}
    (ha : ProgressNull a.trace) (hf : ∀ x, ProgressNull (f x).trace) :
    ProgressNull (a.seq f).trace := by
  unfold Tr.seq
  cases a.res with
  | error m => exact ha
  | ok x => exact progressNull_append ha (hf x)

/-- With an unknown total, the transfer batch loop only ever emits null
percent and null etaSec. -/
theorem transferLoop_null (sid : Option String) (N : Nat) (name : String)
    (el : Nat → ℚ) (insFail : Option Nat) :
    ∀ (docs : List Doc) (wf : Bool) (step done : Nat),
      ProgressNull (transferLoop sid N 0 name el insFail step done docs wf).trace := by
  intro docs
  induction docs using cursorBatches.induct N with
  | case1 =>
    intro wf step done
    rw [transferLoop]
    cases wf <;> simp <;> exact progressNull_nil
  | case2 d rest ih =>
    intro wf step done
    rw [transferLoop]
    by_cases hc : (d :: rest).length < N ∧ wf = true
    · rw [if_pos hc]; exact progressNull_nil
    · rw [if_neg hc]
      by_cases hf : insFail = some step
      · rw [if_pos hf]
        exact progressNull_act_cons _ progressNull_nil
      · rw [if_neg hf]
        refine progressNull_act_cons _ (progressNull_append ?_ (ih wf _ _))
        refine progressNull_emitTo ?_
        intro nm dn tt p sp eta he
        rcases Event.progress.inj he with ⟨_, _, _, hp, _, heta⟩
        exact ⟨by rw [← hp, jsPercent_zero], by rw [← heta, jsEta_zero]⟩

theorem progressNull_emit_collStart (sid : Option String) (nm : String)
    (idx : Nat) (tt : Option Nat) :
    ProgressNull (emitTo sid (Event.collectionStart nm idx tt)) := by
  refine progressNull_emitTo ?_
  intro _ _ _ _ _ _ h
  exact Event.noConfusion h

theorem progressNull_emit_collDone (sid : Option String) (nm : String)
    (n : Nat) :
    ProgressNull (emitTo sid (Event.collectionDone nm n)) := by
  refine progressNull_emitTo ?_
  intro _ _ _ _ _ _ h
  exact Event.noConfusion h

theorem jsPercentN_unknown (d : Nat) {total : Option Nat}
    (h : total = none ∨ total = some 0) : jsPercentN d total = none := by
  rcases h with h | h <;> subst h
  · rfl
  · simp [jsPercentN, jsPercent_zero]

theorem jsEtaN_unknown (d : Nat) {total : Option Nat} (s : ℤ)
    (h : total = none ∨ total = some 0) : jsEtaN d total s = none := by
  rcases h with h | h <;> subst h
  · rfl
  · simp [jsEtaN, jsEta_zero]

theorem procLine_null (sid : Option String) (parse : String → Option Doc)
    (N : Nat) (collName : String) {total : Option Nat} (el : Nat → ℚ)
    (insFail : Option Nat) (line : List Char) (st : USt)
    (ht : total = none ∨ total = some 0) :
    ProgressNull (procLine sid parse N collName total el insFail line st).trace := by
  unfold procLine
  by_cases h0 : (jsTrim line).isEmpty
  · rw [if_pos h0]; exact progressNull_nil
  · rw [if_neg h0]
    cases parse (List.asString (jsTrim line)) with
    | none => exact progressNull_nil
    | some obj =>
      simp only
      by_cases h1 : N ≤ (st.batch ++ [obj]).length
      · rw [if_pos h1]
        by_cases h2 : insFail = some st.calls
        · rw [if_pos h2]
          exact progressNull_act_cons _ progressNull_nil
        · rw [if_neg h2]
          refine progressNull_act_cons _ (progressNull_emitTo ?_)
          intro nm dn tt p sp eta he
          rcases Event.progress.inj he with ⟨_, _, _, hp, _, heta⟩
          exact ⟨by rw [← hp, jsPercentN_unknown _ ht],
            by rw [← heta, jsEtaN_unknown _ _ ht]⟩
      · rw [if_neg h1]; exact progressNull_nil

theorem procLines_null (sid : Option String) (parse : String → Option Doc)
    (N : Nat) (collName : String) {total : Option Nat} (el : Nat → ℚ)
    (insFail : Option Nat) (ht : total = none ∨ total = some 0) :
    ∀ (lines : List (List Char)) (st : USt),
      ProgressNull (procLines sid parse N collName total el insFail lines st).trace := by
  intro lines
  induction lines with
  | nil => intro st; exact progressNull_nil
  | cons l ls ih =>
    intro st
    exact progressNull_seq
      (procLine_null sid parse N collName el insFail l st ht) fun st' => ih st'

theorem procChunks_null (sid : Option String) (parse : String → Option Doc)
    (N : Nat) (collName : String) {total : Option Nat} (el : Nat → ℚ)
    (insFail : Option Nat) (ht : total = none ∨ total = some 0) :
    ∀ (chunks : List String) (buf : List Char) (st : USt),
      ProgressNull (procChunks sid parse N collName total el insFail chunks buf st).trace := by
  intro chunks
  induction chunks with
  | nil => intro buf st; exact progressNull_nil
  | cons ch chs ih =>
    intro buf st
    exact progressNull_seq
      (procLines_null sid parse N collName el insFail ht _ st) fun st' => ih _ st'

theorem finishFile_null (sid : Option String) (collName : String)
    {total : Option Nat} (el : Nat → ℚ) (insFail : Option Nat) (st : USt)
    (ht : total = none ∨ total = some 0) :
    ProgressNull (finishFile sid collName total el insFail st).trace := by
  unfold finishFile
  by_cases h0 : st.batch.isEmpty
  · rw [if_pos h0]; exact progressNull_nil
  · rw [if_neg h0]
    by_cases h2 : insFail = some st.calls
    · rw [if_pos h2]
      exact progressNull_act_cons _ progressNull_nil
    · rw [if_neg h2]
      refine progressNull_act_cons _ (progressNull_emitTo ?_)
      intro nm dn tt p sp eta he
      rcases Event.progress.inj he with ⟨_, _, _, hp, _, heta⟩
      exact ⟨by rw [← hp, jsPercentN_unknown _ ht],
        by rw [← heta, jsEtaN_unknown _ _ ht]⟩

/-- C5: whenever a collection's total is unknown — the count retrieval
failed or returned zero (backup/transfer), or the line-count pre-pass
failed or counted zero (import) — every progress event emitted for that
collection has `percent = null` and `etaSec = null`, regardless of how
many records were actually processed. -/
theorem claim_C5 :
    (∀ (sid : Option String) (N : Nat) (el : Nat → ℚ) (idx : Nat) (c : BColl),
      bTotal c = 0 → ProgressNull (runBColl sid N el idx c).trace) ∧
    (∀ (sid : Option String) (N : Nat) (el : Nat → ℚ) (idx : Nat) (c : TColl),
      tTotal c = 0 → ProgressNull (runTColl sid N el idx c).trace) ∧
    (∀ (sid : Option String) (parse : String → Option Doc) (N : Nat)
        (el : Nat → ℚ) (idx : Nat) (f : UFile),
      uTotal f = none ∨ uTotal f = some 0 →
        ProgressNull (runUFile sid parse N el idx f).trace) := by
  refine ⟨?_, ?_, ?_⟩
  · intro sid N el idx c h0
    unfold runBColl
    rw [h0]
    cases hres : (backupLoop sid N 0 c.name el 0 0 (cursorYield c.docs c.failAfter).1
        (cursorYield c.docs c.failAfter).2).res with
    | error m =>
      simp only [hres]
      exact progressNull_append (progressNull_emit_collStart _ _ _ _)
        (by have := backupLoop_null sid N c.name el
              (cursorYield c.docs c.failAfter).1
              (cursorYield c.docs c.failAfter).2 0 0
            exact this)
    | ok v =>
      simp only [hres]
      exact progressNull_append (progressNull_append
        (progressNull_emit_collStart _ _ _ _)
        (backupLoop_null sid N c.name el _ _ 0 0))
        (progressNull_emit_collDone _ _ _)
  · intro sid N el idx c h0
    unfold runTColl
    rw [h0]
    cases c.deleteRes with
    | error m => exact progressNull_act_cons _ progressNull_nil
    | ok _ =>
      cases hres : (transferLoop sid N 0 c.name el c.insertFailAt 0 0
          (cursorYield c.docs c.failAfter).1
          (cursorYield c.docs c.failAfter).2).res with
      | error m =>
        simp only [hres]
        exact progressNull_act_cons _ (progressNull_append
          (progressNull_emit_collStart _ _ _ _)
          (transferLoop_null sid N c.name el c.insertFailAt _ _ 0 0))
      | ok v =>
        simp only [hres]
        exact progressNull_act_cons _ (progressNull_append
          (progressNull_append (progressNull_emit_collStart _ _ _ _)
            (transferLoop_null sid N c.name el c.insertFailAt _ _ 0 0))
          (progressNull_emit_collDone _ _ _))
  · intro sid parse N el idx f ht
    unfold runUFile
    cases f.deleteRes with
    | error m => exact progressNull_act_cons _ progressNull_nil
    | ok _ =>
      have hbody : ProgressNull ((procChunks sid parse N (stripExt f.name)
          (uTotal f) el f.insertFailAt f.chunks [] ⟨[], 0, 0⟩).seq
            (finishFile sid (stripExt f.name) (uTotal f) el f.insertFailAt)).trace :=
        progressNull_seq
          (procChunks_null sid parse N (stripExt f.name) el f.insertFailAt ht _ _ _)
          fun st => finishFile_null sid (stripExt f.name) el f.insertFailAt st ht
      cases hres : ((procChunks sid parse N (stripExt f.name) (uTotal f) el
          f.insertFailAt f.chunks [] ⟨[], 0, 0⟩).seq
            (finishFile sid (stripExt f.name) (uTotal f) el f.insertFailAt)).res with
      | error m =>
        simp only [hres]
        exact progressNull_act_cons _ (progressNull_append
          (progressNull_emit_collStart _ _ _ _) hbody)
      | ok v =>
        simp only [hres]
        exact progressNull_act_cons _ (progressNull_append
          (progressNull_append (progressNull_emit_collStart _ _ _ _) hbody)
          (progressNull_emit_collDone _ _ _))

/-- C5 witness: a backup collection whose `countDocuments` throws has
`totalDocs = 0` and the claim applies to it. -/
theorem claim_C5_witness :
    bTotal ⟨"users", Except.error (), [1, 2, 3], none⟩ = 0 ∧
    ProgressNull (runBColl (some "sock") 2 (fun _ => 0) 0
      ⟨"users", Except.error (), [1, 2, 3], none⟩).trace :=
  ⟨rfl, claim_C5.1 (some "sock") 2 (fun _ => 0) 0
    ⟨"users", Except.error (), [1, 2, 3], none⟩ rfl⟩

theorem jsRound_mono {q r : ℚ} (h : q ≤ r) : jsRound q ≤ jsRound r := by
  rw [jsRound_eq_floor, jsRound_eq_floor]
  exact Int.floor_le_floor (by linarith)

/-- The reported percent is monotone in `done` for a fixed nonzero total. -/
theorem percent_val_mono (t : Nat) (ht : t ≠ 0) {d d' : Nat} (h : d ≤ d') :
    min 100 (jsRound ((d : ℚ) / (t : ℚ) * 100)) ≤
      min 100 (jsRound ((d' : ℚ) / (t : ℚ) * 100)) := by
  refine min_le_min le_rfl (jsRound_mono ?_)
  have ht' : (0 : ℚ) < (t : ℚ) := by
    exact_mod_cast Nat.pos_of_ne_zero ht
  have hdd : (d : ℚ) ≤ (d' : ℚ) := by exact_mod_cast h
  gcongr

theorem jsPercent_of_ne_zero (d t : Nat) (ht : t ≠ 0) :
    jsPercent d t = some (min 100 (jsRound ((d : ℚ) / (t : ℚ) * 100))) := by
  rw [jsPercent, if_neg ht]

theorem progressPercents_act_cons (a : Action) (l : List Item) :
    progressPercents (Item.act a :: l) = progressPercents l := by
  simp [progressPercents]

theorem progressPercents_emitTo_none (e : Event) (l : List Item) :
    progressPercents (emitTo none e ++ l) = progressPercents l := by
  simp [emitTo]

theorem progressPercents_emitTo_some (s : String) (nm : String) (dn : Nat)
    (tt : Option Nat) (pv : ℤ) (sp : ℤ) (eta : Option ℤ) (l : List Item) :
    progressPercents (emitTo (some s) (Event.progress nm dn tt (some pv) sp eta) ++ l) =
      pv :: progressPercents l := by
  simp [emitTo, progressPercents]

theorem progressPercents_emitTo_collStart (sid : Option String) (nm : String)
    (idx : Nat) (tt : Option Nat) (l : List Item) :
    progressPercents (emitTo sid (Event.collectionStart nm idx tt) ++ l) =
      progressPercents l := by
  cases sid <;> simp [emitTo, progressPercents]

theorem progressPercents_emitTo_collDone (sid : Option String) (nm : String)
    (n : Nat) (l : List Item) :
    progressPercents (emitTo sid (Event.collectionDone nm n) ++ l) =
      progressPercents l := by
  cases sid <;> simp [emitTo, progressPercents]

/-- The percent values reported along the backup batch loop are bounded
below by the percent of the starting `done` and non-decreasing. -/
theorem backupLoop_chain (sid : Option String) (N t : Nat) (name : String)
    (el : Nat → ℚ) (ht : t ≠ 0) :
    ∀ (docs : List Doc) (wf : Bool) (step done : Nat),
      (∀ x ∈ progressPercents (backupLoop sid N t name el step done docs wf).trace,
        min 100 (jsRound ((done : ℚ) / (t : ℚ) * 100)) ≤ x) ∧
      List.Chain' (· ≤ ·)
        (progressPercents (backupLoop sid N t name el step done docs wf).trace) := by
  intro docs
  induction docs using cursorBatches.induct N with
  | case1 =>
    intro wf step done
    rw [backupLoop]
    cases wf <;> simp [progressPercents]
  | case2 d rest ih =>
    intro wf step done
    rw [backupLoop]
    by_cases hc : (d :: rest).length < N ∧ wf = true
    · rw [if_pos hc]; simp [progressPercents]
    · rw [if_neg hc]
      simp only [progressPercents_act_cons]
      set done' := done + (d :: rest.take (N - 1)).length with hdone'
      have hmono : min 100 (jsRound ((done : ℚ) / (t : ℚ) * 100)) ≤
          min 100 (jsRound ((done' : ℚ) / (t : ℚ) * 100)) :=
        percent_val_mono t ht (by omega)
      obtain ⟨ihb, ihc⟩ := ih wf (step + 1) done'
      cases sid with
      | none =>
        rw [progressPercents_emitTo_none]
        exact ⟨fun x hx => le_trans hmono (ihb x hx), ihc⟩
      | some s =>
        rw [jsPercent_of_ne_zero done' t ht, progressPercents_emitTo_some]
        constructor
        · intro x hx
          rcases List.mem_cons.mp hx with h1 | h1
          · subst h1; exact hmono
          · exact le_trans hmono (ihb x h1)
        · rw [List.chain'_cons']
          exact ⟨fun y hy => ihb y (List.mem_of_mem_head? hy), ihc⟩

/-- Same statement for the transfer batch loop. -/
theorem transferLoop_chain (sid : Option String) (N t : Nat) (name : String)
    (el : Nat → ℚ) (insFail : Option Nat) (ht : t ≠ 0) :
    ∀ (docs : List Doc) (wf : Bool) (step done : Nat),
      (∀ x ∈ progressPercents (transferLoop sid N t name el insFail step done docs wf).trace,
        min 100 (jsRound ((done : ℚ) / (t : ℚ) * 100)) ≤ x) ∧
      List.Chain' (· ≤ ·)
        (progressPercents (transferLoop sid N t name el insFail step done docs wf).trace) := by
  intro docs
  induction docs using cursorBatches.induct N with
  | case1 =>
    intro wf step done
    rw [transferLoop]
    cases wf <;> simp [progressPercents]
  | case2 d rest ih =>
    intro wf step done
    rw [transferLoop]
    by_cases hc : (d :: rest).length < N ∧ wf = true
    · rw [if_pos hc]; simp [progressPercents]
    · rw [if_neg hc]
      by_cases hf : insFail = some step
      · rw [if_pos hf]
        simp [progressPercents]
      · rw [if_neg hf]
        simp only [progressPercents_act_cons]
        set done' := done + (d :: rest.take (N - 1)).length with hdone'
        have hmono : min 100 (jsRound ((done : ℚ) / (t : ℚ) * 100)) ≤
            min 100 (jsRound ((done' : ℚ) / (t : ℚ) * 100)) :=
          percent_val_mono t ht (by omega)
        obtain ⟨ihb, ihc⟩ := ih wf (step + 1) done'
        cases sid with
        | none =>
          rw [progressPercents_emitTo_none]
          exact ⟨fun x hx => le_trans hmono (ihb x hx), ihc⟩
        | some s =>
          rw [jsPercent_of_ne_zero done' t ht, progressPercents_emitTo_some]
          constructor
          · intro x hx
            rcases List.mem_cons.mp hx with h1 | h1
            · subst h1; exact hmono
            · exact le_trans hmono (ihb x h1)
          · rw [List.chain'_cons']
            exact ⟨fun y hy => ihb y (List.mem_of_mem_head? hy), ihc⟩

theorem percentFormula_nil (t : Nat) : PercentFormula t [] := by
  intro nm dn tt p sp eta h
  simp at h

theorem percentFormula_append {t : Nat} {a b : List Item}
    (ha : PercentFormula t a) (hb : PercentFormula t b) :
    PercentFormula t (a ++ b) := by
  intro nm dn tt p sp eta h
  rcases List.mem_append.mp h with h1 | h1
  · exact ha nm dn tt p sp eta h1
  · exact hb nm dn tt p sp eta h1

theorem percentFormula_act_cons {t : Nat} {l : List Item} (a : Action)
    (hl : PercentFormula t l) : PercentFormula t (Item.act a :: l) := by
  intro nm dn tt p sp eta h
  rcases List.mem_cons.mp h with h1 | h1
  · exact absurd h1 (by simp)
  · exact hl nm dn tt p sp eta h1

theorem percentFormula_emitTo {t : Nat} {sid : Option String} {e : Event}
    (he : ∀ (nm : String) (dn : Nat) (tt : Option Nat) (p : Option ℤ) (sp : ℤ)
      (eta : Option ℤ), e = Event.progress nm dn tt p sp eta →
        tt = some t ∧ p = some (min 100 (jsRound ((dn : ℚ) / (t : ℚ) * 100)))) :
    PercentFormula t (emitTo sid e) := by
  intro nm dn tt p sp eta h
  cases sid with
  | none => simp [emitTo] at h
  | some s =>
    simp only [emitTo, List.mem_singleton] at h
    exact he nm dn tt p sp eta (Item.ev.inj h).symm

/-- Every progress event of the backup batch loop with a nonzero fixed
total reports that total and the claimed percent formula. -/
theorem backupLoop_formula (sid : Option String) (N t : Nat) (name : String)
    (el : Nat → ℚ) (ht : t ≠ 0) :
    ∀ (docs : List Doc) (wf : Bool) (step done : Nat),
      PercentFormula t (backupLoop sid N t name el step done docs wf).trace := by
  intro docs
  induction docs using cursorBatches.induct N with
  | case1 =>
    intro wf step done
    rw [backupLoop]
    cases wf <;> simp <;> exact percentFormula_nil t
  | case2 d rest ih =>
    intro wf step done
    rw [backupLoop]
    by_cases hc : (d :: rest).length < N ∧ wf = true
    · rw [if_pos hc]; exact percentFormula_nil t
    · rw [if_neg hc]
      refine percentFormula_act_cons _ (percentFormula_append ?_ (ih wf _ _))
      refine percentFormula_emitTo ?_
      intro nm dn tt p sp eta he
      rcases Event.progress.inj he with ⟨_, hdn, htt, hp, _, _⟩
      subst hdn
      exact ⟨htt.symm, by rw [← hp, jsPercent_of_ne_zero _ t ht]⟩

/-- Same statement for the transfer batch loop. -/
theorem transferLoop_formula (sid : Option String) (N t : Nat) (name : String)
    (el : Nat → ℚ) (insFail : Option Nat) (ht : t ≠ 0) :
    ∀ (docs : List Doc) (wf : Bool) (step done : Nat),
      PercentFormula t (transferLoop sid N t name el insFail step done docs wf).trace := by
  intro docs
  induction docs using cursorBatches.induct N with
  | case1 =>
    intro wf step done
    rw [transferLoop]
    cases wf <;> simp <;> exact percentFormula_nil t
  | case2 d rest ih =>
    intro wf step done
    rw [transferLoop]
    by_cases hc : (d :: rest).length < N ∧ wf = true
    · rw [if_pos hc]; exact percentFormula_nil t
    · rw [if_neg hc]
      by_cases hf : insFail = some step
      · rw [if_pos hf]
        exact percentFormula_act_cons _ (percentFormula_nil t)
      · rw [if_neg hf]
        refine percentFormula_act_cons _ (percentFormula_append ?_ (ih wf _ _))
        refine percentFormula_emitTo ?_
        intro nm dn tt p sp eta he
        rcases Event.progress.inj he with ⟨_, hdn, htt, hp, _, _⟩
        subst hdn
        exact ⟨htt.symm, by rw [← hp, jsPercent_of_ne_zero _ t ht]⟩

theorem percentFormula_emit_collStart (t : Nat) (sid : Option String)
    (nm : String) (idx : Nat) (tt : Option Nat) :
    PercentFormula t (emitTo sid (Event.collectionStart nm idx tt)) := by
  refine percentFormula_emitTo ?_
  intro _ _ _ _ _ _ h
  exact Event.noConfusion h

theorem percentFormula_emit_collDone (t : Nat) (sid : Option String)
    (nm : String) (n : Nat) :
    PercentFormula t (emitTo sid (Event.collectionDone nm n)) := by
  refine percentFormula_emitTo ?_
  intro _ _ _ _ _ _ h
  exact Event.noConfusion h

theorem percentFormula_seq {t : Nat} {α β : Type} {a : Tr α} {f : α → Tr β}
    (ha : PercentFormula t a.trace) (hf : ∀ x, PercentFormula t (f x).trace) :
    PercentFormula t (a.seq f).trace := by
  unfold Tr.seq
  cases a.res with
  | error m => exact ha
  | ok x => exact percentFormula_append ha (hf x)

/-- With a known total, the nullable-total percent is the plain one. -/
theorem jsPercentN_known (d t : Nat) (ht : t ≠ 0) :
    jsPercentN d (some t) =
      some (min 100 (jsRound ((d : ℚ) / (t : ℚ) * 100))) :=
  jsPercent_of_ne_zero d t ht

/-- Every progress event a single import line may emit with a known
nonzero total reports that total and the claimed percent formula. -/
theorem procLine_formula (sid : Option String) (parse : String → Option Doc)
    (N : Nat) (collName : String) (t : Nat) (el : Nat → ℚ)
    (insFail : Option Nat) (ht : t ≠ 0) (line : List Char) (st : USt) :
    PercentFormula t
      (procLine sid parse N collName (some t) el insFail line st).trace := by
  unfold procLine
  by_cases h0 : (jsTrim line).isEmpty
  · rw [if_pos h0]; exact percentFormula_nil t
  · rw [if_neg h0]
    cases parse (List.asString (jsTrim line)) with
    | none => exact percentFormula_nil t
    | some obj =>
      simp only
      by_cases h1 : N ≤ (st.batch ++ [obj]).length
      · rw [if_pos h1]
        by_cases h2 : insFail = some st.calls
        · rw [if_pos h2]
          exact percentFormula_act_cons _ (percentFormula_nil t)
        · rw [if_neg h2]
          refine percentFormula_act_cons _ (percentFormula_emitTo ?_)
          intro nm dn tt p sp eta he
          rcases Event.progress.inj he with ⟨_, hdn, htt, hp, _, _⟩
          subst hdn
          exact ⟨htt.symm, by rw [← hp, jsPercentN_known _ t ht]⟩
      · rw [if_neg h1]; exact percentFormula_nil t

theorem procLines_formula (sid : Option String) (parse : String → Option Doc)
    (N : Nat) (collName : String) (t : Nat) (el : Nat → ℚ)
    (insFail : Option Nat) (ht : t ≠ 0) :
    ∀ (lines : List (List Char)) (st : USt),
      PercentFormula t
        (procLines sid parse N collName (some t) el insFail lines st).trace := by
  intro lines
  induction lines with
  | nil => intro st; exact percentFormula_nil t
  | cons l ls ih =>
    intro st
    exact percentFormula_seq
      (procLine_formula sid parse N collName t el insFail ht l st)
      fun st2 => ih st2

theorem procChunks_formula (sid : Option String) (parse : String → Option Doc)
    (N : Nat) (collName : String) (t : Nat) (el : Nat → ℚ)
    (insFail : Option Nat) (ht : t ≠ 0) :
    ∀ (chunks : List String) (buf : List Char) (st : USt),
      PercentFormula t
        (procChunks sid parse N collName (some t) el insFail chunks buf st).trace := by
  intro chunks
  induction chunks with
  | nil => intro buf st; exact percentFormula_nil t
  | cons ch chs ih =>
    intro buf st
    exact percentFormula_seq
      (procLines_formula sid parse N collName t el insFail ht _ st)
      fun st2 => ih _ st2

theorem finishFile_formula (sid : Option String) (collName : String)
    (t : Nat) (el : Nat → ℚ) (insFail : Option Nat) (ht : t ≠ 0) (st : USt) :
    PercentFormula t
      (finishFile sid collName (some t) el insFail st).trace := by
  unfold finishFile
  by_cases h0 : st.batch.isEmpty
  · rw [if_pos h0]; exact percentFormula_nil t
  · rw [if_neg h0]
    by_cases h2 : insFail = some st.calls
    · rw [if_pos h2]
      exact percentFormula_act_cons _ (percentFormula_nil t)
    · rw [if_neg h2]
      refine percentFormula_act_cons _ (percentFormula_emitTo ?_)
      intro nm dn tt p sp eta he
      rcases Event.progress.inj he with ⟨_, hdn, htt, hp, _, _⟩
      subst hdn
      exact ⟨htt.symm, by rw [← hp, jsPercentN_known _ t ht]⟩

/-- A stage with no reported percents and a non-decreasing `importedCount`
satisfies the import chain invariant. -/
theorem importChain_silent {t : Nat} {st st2 : USt} (tr : List Item)
    (htr : progressPercents tr = []) (h : st.imported ≤ st2.imported) :
    ImportChain t st ⟨tr, Except.ok st2⟩ := by
  refine ⟨?_, ?_, ?_⟩
  · intro x hx
    dsimp only at hx
    rw [htr] at hx
    exact absurd hx (List.not_mem_nil x)
  · dsimp only
    rw [htr]
    exact List.chain'_nil
  · intro st3 h3
    dsimp only at h3
    injection h3 with h3
    subst h3
    refine ⟨h, ?_⟩
    intro x hx
    dsimp only at hx
    rw [htr] at hx
    exact absurd hx (List.not_mem_nil x)

/-- A failing stage with no reported percents satisfies the invariant. -/
theorem importChain_fail {t : Nat} {st : USt} (tr : List Item) (m : String)
    (htr : progressPercents tr = []) :
    ImportChain t st ⟨tr, Except.error m⟩ := by
  refine ⟨?_, ?_, ?_⟩
  · intro x hx
    dsimp only at hx
    rw [htr] at hx
    exact absurd hx (List.not_mem_nil x)
  · dsimp only
    rw [htr]
    exact List.chain'_nil
  · intro st3 h3
    dsimp only at h3
    exact absurd h3 (by simp)

/-- The import chain invariant composes along `Tr.seq`. -/
theorem importChain_seq {t : Nat} {st : USt} {a : Tr USt} {f : USt → Tr USt}
    (ht : t ≠ 0) (ha : ImportChain t st a)
    (hf : ∀ x, a.res = Except.ok x → ImportChain t x (f x)) :
    ImportChain t st (a.seq f) := by
  obtain ⟨halo, hach, haok⟩ := ha
  unfold Tr.seq
  cases hres : a.res with
  | error m =>
    refine ⟨halo, hach, ?_⟩
    intro st2 h
    exact absurd h (by simp)
  | ok x =>
    obtain ⟨hxlo, hxch, hxok⟩ := hf x hres
    obtain ⟨hax, haup⟩ := haok x hres
    dsimp only
    refine ⟨?_, ?_, ?_⟩
    · intro y hy
      rw [progressPercents_append] at hy
      rcases List.mem_append.mp hy with h1 | h1
      · exact halo y h1
      · exact le_trans (percent_val_mono t ht hax) (hxlo y h1)
    · rw [progressPercents_append, List.chain'_append]
      refine ⟨hach, hxch, ?_⟩
      intro y hy z hz
      exact le_trans (haup y (List.mem_of_mem_getLast? hy))
        (hxlo z (List.mem_of_mem_head? hz))
    · intro st2 h
      obtain ⟨hx2, hup2⟩ := hxok st2 h
      refine ⟨le_trans hax hx2, ?_⟩
      intro y hy
      rw [progressPercents_append] at hy
      rcases List.mem_append.mp hy with h1 | h1
      · exact le_trans (haup y h1) (percent_val_mono t ht hx2)
      · exact hup2 y h1

/-- One import line preserves the chain invariant: the one percent it may
report is the percent of the post-insert `importedCount`. -/
theorem procLine_chain (sid : Option String) (parse : String → Option Doc)
    (N : Nat) (collName : String) (t : Nat) (el : Nat → ℚ)
    (insFail : Option Nat) (ht : t ≠ 0) (line : List Char) (st : USt) :
    ImportChain t st
      (procLine sid parse N collName (some t) el insFail line st) := by
  unfold procLine
  by_cases h0 : (jsTrim line).isEmpty
  · rw [if_pos h0]; exact importChain_silent _ rfl le_rfl
  · rw [if_neg h0]
    cases parse (List.asString (jsTrim line)) with
    | none => exact importChain_silent _ rfl le_rfl
    | some obj =>
      simp only
      by_cases h1 : N ≤ (st.batch ++ [obj]).length
      · rw [if_pos h1]
        by_cases h2 : insFail = some st.calls
        · rw [if_pos h2]
          exact importChain_fail _ _ rfl
        · rw [if_neg h2]
          cases sid with
          | none =>
            exact importChain_silent _ rfl (Nat.le_add_right _ _)
          | some s =>
            have hpp : progressPercents
                (Item.act (Action.insertMany collName (st.batch ++ [obj])) ::
                  emitTo (some s) (Event.progress collName
                    (st.imported + (st.batch ++ [obj]).length) (some t)
                    (jsPercentN (st.imported + (st.batch ++ [obj]).length) (some t))
                    (speedOf (st.imported + (st.batch ++ [obj]).length) (el st.calls))
                    (jsEtaN (st.imported + (st.batch ++ [obj]).length) (some t)
                      (speedOf (st.imported + (st.batch ++ [obj]).length) (el st.calls))))) =
                [min 100 (jsRound (((st.imported + (st.batch ++ [obj]).length : Nat) : ℚ) /
                  (t : ℚ) * 100))] := by
              rw [jsPercentN_known _ t ht]
              simp [emitTo, progressPercents]
            refine ⟨?_, ?_, ?_⟩
            · intro x hx
              dsimp only at hx
              rw [hpp] at hx
              rcases List.mem_singleton.mp hx with h3
              subst h3
              exact percent_val_mono t ht (Nat.le_add_right _ _)
            · dsimp only
              rw [hpp]
              exact List.chain'_singleton _
            · intro st3 h3
              dsimp only at h3
              injection h3 with h3
              subst h3
              refine ⟨Nat.le_add_right _ _, ?_⟩
              intro x hx
              dsimp only at hx
              rw [hpp] at hx
              rcases List.mem_singleton.mp hx with h4
              subst h4
              exact le_rfl
      · rw [if_neg h1]; exact importChain_silent _ rfl le_rfl

theorem procLines_chain (sid : Option String) (parse : String → Option Doc)
    (N : Nat) (collName : String) (t : Nat) (el : Nat → ℚ)
    (insFail : Option Nat) (ht : t ≠ 0) :
    ∀ (lines : List (List Char)) (st : USt),
      ImportChain t st
        (procLines sid parse N collName (some t) el insFail lines st) := by
  intro lines
  induction lines with
  | nil => intro st; exact importChain_silent _ rfl le_rfl
  | cons l ls ih =>
    intro st
    exact importChain_seq ht
      (procLine_chain sid parse N collName t el insFail ht l st)
      fun st2 h2 => ih st2

theorem procChunks_chain (sid : Option String) (parse : String → Option Doc)
    (N : Nat) (collName : String) (t : Nat) (el : Nat → ℚ)
    (insFail : Option Nat) (ht : t ≠ 0) :
    ∀ (chunks : List String) (buf : List Char) (st : USt),
      ImportChain t st
        (procChunks sid parse N collName (some t) el insFail chunks buf st) := by
  intro chunks
  induction chunks with
  | nil => intro buf st; exact importChain_silent _ rfl le_rfl
  | cons ch chs ih =>
    intro buf st
    exact importChain_seq ht
      (procLines_chain sid parse N collName t el insFail ht _ st)
      fun st2 h2 => ih _ st2

/-- The trailing flush reports at most one percent, bounded below by the
starting percent and equal to the percent of the returned final count. -/
theorem finishFile_chain (sid : Option String) (collName : String) (t : Nat)
    (el : Nat → ℚ) (insFail : Option Nat) (ht : t ≠ 0) (st : USt) :
    (∀ x ∈ progressPercents
        (finishFile sid collName (some t) el insFail st).trace,
      min 100 (jsRound ((st.imported : ℚ) / (t : ℚ) * 100)) ≤ x) ∧
    List.Chain' (· ≤ ·) (progressPercents
      (finishFile sid collName (some t) el insFail st).trace) ∧
    ∀ n, (finishFile sid collName (some t) el insFail st).res = Except.ok n →
      ∀ x ∈ progressPercents
          (finishFile sid collName (some t) el insFail st).trace,
        x ≤ min 100 (jsRound ((n : ℚ) / (t : ℚ) * 100)) := by
  unfold finishFile
  by_cases h0 : st.batch.isEmpty
  · rw [if_pos h0]
    refine ⟨?_, ?_, ?_⟩ <;> simp [progressPercents]
  · rw [if_neg h0]
    by_cases h2 : insFail = some st.calls
    · rw [if_pos h2]
      refine ⟨?_, ?_, ?_⟩
      · intro x hx
        simp [progressPercents] at hx
      · simp [progressPercents]
      · intro n h3
        dsimp only at h3
        exact absurd h3 (by simp)
    · rw [if_neg h2]
      cases sid with
      | none =>
        refine ⟨?_, ?_, ?_⟩ <;> simp [emitTo, progressPercents]
      | some s =>
        have hpp : progressPercents
            (Item.act (Action.insertMany collName st.batch) ::
              emitTo (some s) (Event.progress collName
                (st.imported + st.batch.length) (some t)
                (jsPercentN (st.imported + st.batch.length) (some t))
                (speedOf (st.imported + st.batch.length) (el st.calls))
                (jsEtaN (st.imported + st.batch.length) (some t)
                  (speedOf (st.imported + st.batch.length) (el st.calls))))) =
            [min 100 (jsRound (((st.imported + st.batch.length : Nat) : ℚ) /
              (t : ℚ) * 100))] := by
          rw [jsPercentN_known _ t ht]
          simp [emitTo, progressPercents]
        refine ⟨?_, ?_, ?_⟩
        · intro x hx
          dsimp only at hx
          rw [hpp] at hx
          rcases List.mem_singleton.mp hx with h3
          subst h3
          exact percent_val_mono t ht (Nat.le_add_right _ _)
        · dsimp only
          rw [hpp]
          exact List.chain'_singleton _
        · intro n h3
          dsimp only at h3
          injection h3 with h3
          subst h3
          intro x hx
          dsimp only at hx
          rw [hpp] at hx
          rcases List.mem_singleton.mp hx with h4
          subst h4
          exact le_rfl

/-- The percents reported while streaming one import file (chunk loop then
trailing flush) form a non-decreasing sequence. -/
theorem fileBody_chain (sid : Option String) (parse : String → Option Doc)
    (N : Nat) (collName : String) (t : Nat) (el : Nat → ℚ)
    (insFail : Option Nat) (ht : t ≠ 0) (chunks : List String) :
    List.Chain' (· ≤ ·) (progressPercents
      ((procChunks sid parse N collName (some t) el insFail chunks
          [] ⟨[], 0, 0⟩).seq
        (finishFile sid collName (some t) el insFail)).trace) := by
  obtain ⟨hlo, hch, hok⟩ :=
    procChunks_chain sid parse N collName t el insFail ht chunks [] ⟨[], 0, 0⟩
  unfold Tr.seq
  cases hres : (procChunks sid parse N collName (some t) el insFail chunks
      [] ⟨[], 0, 0⟩).res with
  | error m => exact hch
  | ok x =>
    obtain ⟨hxlo, hxch, hxok⟩ := finishFile_chain sid collName t el insFail ht x
    obtain ⟨hle, hup⟩ := hok x hres
    dsimp only
    rw [progressPercents_append, List.chain'_append]
    refine ⟨hch, hxch, ?_⟩
    intro y hy z hz
    exact le_trans (hup y (List.mem_of_mem_getLast? hy))
      (hxlo z (List.mem_of_mem_head? hz))

/-- C1: for a collection whose count retrieval succeeded with a nonzero
fixed total `t` — `countDocuments` for backup and transfer, the
line-count pre-pass for import — every progress event carries
`totalDocs = t` and `percent = min(100, round(done/t*100))` for its own
running `done` (`docsDone` / `transferred` / `importedCount`), and the
percent sequence across the collection's progress events is monotonically
non-decreasing. -/
theorem claim_C1 :
    (∀ (sid : Option String) (N : Nat) (el : Nat → ℚ) (idx : Nat) (c : BColl)
        (t : Nat), c.countRes = Except.ok t → t ≠ 0 →
      PercentFormula t (runBColl sid N el idx c).trace ∧
      List.Chain' (· ≤ ·) (progressPercents (runBColl sid N el idx c).trace)) ∧
    (∀ (sid : Option String) (N : Nat) (el : Nat → ℚ) (idx : Nat) (c : TColl)
        (t : Nat), c.countRes = Except.ok t → t ≠ 0 →
      PercentFormula t (runTColl sid N el idx c).trace ∧
      List.Chain' (· ≤ ·) (progressPercents (runTColl sid N el idx c).trace)) ∧
    (∀ (sid : Option String) (parse : String → Option Doc) (N : Nat)
        (el : Nat → ℚ) (idx : Nat) (f : UFile) (t : Nat),
      uTotal f = some t → t ≠ 0 →
      PercentFormula t (runUFile sid parse N el idx f).trace ∧
      List.Chain' (· ≤ ·)
        (progressPercents (runUFile sid parse N el idx f).trace)) := by
  refine ⟨?_, ?_, ?_⟩
  · intro sid N el idx c t hcount ht
    have hbt : bTotal c = t := by simp [bTotal, hcount]
    unfold runBColl
    rw [hbt]
    cases hres : (backupLoop sid N t c.name el 0 0 (cursorYield c.docs c.failAfter).1
        (cursorYield c.docs c.failAfter).2).res with
    | error m =>
      simp only [hres]
      constructor
      · exact percentFormula_append (percentFormula_emit_collStart t _ _ _ _)
          (backupLoop_formula sid N t c.name el ht _ _ 0 0)
      · rw [progressPercents_emitTo_collStart]
        exact (backupLoop_chain sid N t c.name el ht _ _ 0 0).2
    | ok v =>
      simp only [hres]
      constructor
      · exact percentFormula_append (percentFormula_append
          (percentFormula_emit_collStart t _ _ _ _)
          (backupLoop_formula sid N t c.name el ht _ _ 0 0))
          (percentFormula_emit_collDone t _ _ _)
      · rw [progressPercents_append, progressPercents_emitTo_collStart]
        have h2 : progressPercents (emitTo sid (Event.collectionDone c.name (idx + 1))) = [] := by
          cases sid <;> simp [emitTo, progressPercents]
        rw [h2, List.append_nil]
        exact (backupLoop_chain sid N t c.name el ht _ _ 0 0).2
  · intro sid N el idx c t hcount ht
    have hbt : tTotal c = t := by simp [tTotal, hcount]
    unfold runTColl
    rw [hbt]
    cases c.deleteRes with
    | error m =>
      constructor
      · exact percentFormula_act_cons _ (percentFormula_nil t)
      · simp [progressPercents]
    | ok _ =>
      cases hres : (transferLoop sid N t c.name el c.insertFailAt 0 0
          (cursorYield c.docs c.failAfter).1
          (cursorYield c.docs c.failAfter).2).res with
      | error m =>
        simp only [hres]
        constructor
        · exact percentFormula_act_cons _ (percentFormula_append
            (percentFormula_emit_collStart t _ _ _ _)
            (transferLoop_formula sid N t c.name el c.insertFailAt ht _ _ 0 0))
        · rw [progressPercents_act_cons, progressPercents_emitTo_collStart]
          exact (transferLoop_chain sid N t c.name el c.insertFailAt ht _ _ 0 0).2
      | ok v =>
        simp only [hres]
        constructor
        · exact percentFormula_act_cons _ (percentFormula_append
            (percentFormula_append (percentFormula_emit_collStart t _ _ _ _)
              (transferLoop_formula sid N t c.name el c.insertFailAt ht _ _ 0 0))
            (percentFormula_emit_collDone t _ _ _))
        · rw [progressPercents_act_cons, progressPercents_append,
            progressPercents_emitTo_collStart]
          have h2 : progressPercents (emitTo sid (Event.collectionDone c.name (idx + 1))) = [] := by
            cases sid <;> simp [emitTo, progressPercents]
          rw [h2, List.append_nil]
          exact (transferLoop_chain sid N t c.name el c.insertFailAt ht _ _ 0 0).2
  · intro sid parse N el idx f t huT ht
    unfold runUFile
    cases f.deleteRes with
    | error m =>
      constructor
      · exact percentFormula_act_cons _ (percentFormula_nil t)
      · simp [progressPercents]
    | ok _ =>
      have hbody_pf : PercentFormula t ((procChunks sid parse N (stripExt f.name)
          (uTotal f) el f.insertFailAt f.chunks [] ⟨[], 0, 0⟩).seq
            (finishFile sid (stripExt f.name) (uTotal f) el f.insertFailAt)).trace := by
        rw [huT]
        exact percentFormula_seq
          (procChunks_formula sid parse N (stripExt f.name) t el f.insertFailAt ht
            f.chunks [] ⟨[], 0, 0⟩)
          fun st2 => finishFile_formula sid (stripExt f.name) t el f.insertFailAt ht st2
      have hbody_ch : List.Chain' (· ≤ ·) (progressPercents
          ((procChunks sid parse N (stripExt f.name)
            (uTotal f) el f.insertFailAt f.chunks [] ⟨[], 0, 0⟩).seq
              (finishFile sid (stripExt f.name) (uTotal f) el f.insertFailAt)).trace) := by
        rw [huT]
        exact fileBody_chain sid parse N (stripExt f.name) t el f.insertFailAt ht f.chunks
      cases hres : ((procChunks sid parse N (stripExt f.name) (uTotal f) el
          f.insertFailAt f.chunks [] ⟨[], 0, 0⟩).seq
            (finishFile sid (stripExt f.name) (uTotal f) el f.insertFailAt)).res with
      | error m =>
        simp only [hres]
        constructor
        · exact percentFormula_act_cons _ (percentFormula_append
            (percentFormula_emit_collStart t _ _ _ _) hbody_pf)
        · rw [progressPercents_act_cons, progressPercents_emitTo_collStart]
          exact hbody_ch
      | ok v =>
        simp only [hres]
        constructor
        · exact percentFormula_act_cons _ (percentFormula_append
            (percentFormula_append (percentFormula_emit_collStart t _ _ _ _)
              hbody_pf)
            (percentFormula_emit_collDone t _ _ _))
        · rw [progressPercents_act_cons, progressPercents_append,
            progressPercents_emitTo_collStart]
          have h2 : progressPercents (emitTo sid
              (Event.collectionDone (stripExt f.name) v)) = [] := by
            cases sid <;> simp [emitTo, progressPercents]
          rw [h2, List.append_nil]
          exact hbody_ch

/-- C1 witness: a backup collection of 3 records with a known count of 3,
and an import file of 2 lines with a known line count of 2. -/
theorem claim_C1_witness :
    (BColl.mk "users" (Except.ok 3) [7, 8, 9] none).countRes = Except.ok 3 ∧
    (3 : Nat) ≠ 0 ∧
    List.Chain' (· ≤ ·) (progressPercents (runBColl (some "sock") 2
      (fun _ => 0) 0 (BColl.mk "users" (Except.ok 3) [7, 8, 9] none)).trace) ∧
    uTotal (UFile.mk "users.ndjson" ["a\nb\n"] true (Except.ok ()) none) = some 2 ∧
    List.Chain' (· ≤ ·) (progressPercents (runUFile (some "sock")
      (fun _ => some 1) 1 (fun _ => 0) 0
      (UFile.mk "users.ndjson" ["a\nb\n"] true (Except.ok ()) none)).trace) :=
  ⟨rfl, by decide,
    (claim_C1.1 (some "sock") 2 (fun _ => 0) 0
      (BColl.mk "users" (Except.ok 3) [7, 8, 9] none) 3 rfl (by decide)).2,
    by decide,
    (claim_C1.2.2 (some "sock") (fun _ => some 1) 1 (fun _ => 0) 0
      (UFile.mk "users.ndjson" ["a\nb\n"] true (Except.ok ()) none) 2
      (by decide) (by decide)).2⟩

/-- The pending remainder left by line extraction holds no terminator. -/
theorem extractLines_no_nl : ∀ cs : List Char, '\n' ∉ (extractLines cs).2 := by
  intro cs
  induction cs with
  | nil => simp [extractLines]
  | cons c rest ih =>
    rw [extractLines]
    by_cases hc : c = '\n'
    · rw [if_pos hc]; exact ih
    · rw [if_neg hc]
      cases h1 : (extractLines rest).1 with
      | nil =>
        simp only
        intro hmem
        rcases List.mem_cons.mp hmem with h2 | h2
        · exact hc h2.symm
        · exact ih h2
      | cons l ls => simpa using ih

/-- A buffer without a terminator yields no complete line. -/
theorem extractLines_of_no_nl : ∀ cs : List Char, '\n' ∉ cs →
    extractLines cs = ([], cs) := by
  intro cs
  induction cs with
  | nil => intro _; rfl
  | cons c rest ih =>
    intro h
    have hc : ¬ c = '\n' := fun he => h (he ▸ List.mem_cons_self c rest)
    have hrest : '\n' ∉ rest := fun hm => h (List.mem_cons_of_mem c hm)
    rw [extractLines, if_neg hc, ih hrest]

/-- Extracting lines from `u ++ v` is extracting them from `u` and then
from its remainder prefixed to `v`: the incremental buffer loop is
insensitive to where the stream is cut into chunks. -/
theorem extractLines_chain : ∀ u v : List Char,
    extractLines (u ++ v) =
      ((extractLines u).1 ++ (extractLines ((extractLines u).2 ++ v)).1,
        (extractLines ((extractLines u).2 ++ v)).2) := by
  intro u v
  induction u with
  | nil => simp [extractLines]
  | cons c u' ih =>
    simp only [List.cons_append, extractLines, List.append_eq]
    rw [ih]
    by_cases hc : c = '\n'
    · simp [if_pos hc]
    · simp only [if_neg hc]
      cases h1 : (extractLines u').1 with
      | nil =>
        simp only [List.nil_append]
        cases h2 : (extractLines ((extractLines u').2 ++ v)).1 with
        | nil =>
          simp [List.cons_append, extractLines, List.append_eq, if_neg hc, h2]
        | cons l2 ls2 =>
          simp [List.cons_append, extractLines, List.append_eq, if_neg hc, h2]
      | cons l ls =>
        simp only [List.cons_append]

theorem Tr.seq_assoc {α β γ : Type} (a : Tr α) (f : α → Tr β) (g : β → Tr γ) :
    (a.seq f).seq g = a.seq fun x => (f x).seq g := by
  obtain ⟨tra, ra⟩ := a
  cases ra with
  | error m => rfl
  | ok x =>
    simp only [Tr.seq]
    cases hfx : (f x).res with
    | error m => simp [hfx]
    | ok y => simp [hfx, List.append_assoc]

theorem Tr.pure_seq {α β : Type} (x : α) (f : α → Tr β) :
    (Tr.mk [] (Except.ok x)).seq f = f x := by
  unfold Tr.seq
  simp

/-- Processing a concatenation of line lists is processing them in
sequence. -/
theorem procLines_append (sid : Option String) (parse : String → Option Doc)
    (N : Nat) (collName : String) (total : Option Nat) (el : Nat → ℚ)
    (insFail : Option Nat) :
    ∀ (l1 l2 : List (List Char)) (st : USt),
      procLines sid parse N collName total el insFail (l1 ++ l2) st =
        (procLines sid parse N collName total el insFail l1 st).seq
          (procLines sid parse N collName total el insFail l2) := by
  intro l1
  induction l1 with
  | nil =>
    intro l2 st
    rw [List.nil_append]
    exact (Tr.pure_seq st _).symm
  | cons l ls ih =>
    intro l2 st
    rw [List.cons_append]
    show (procLine sid parse N collName total el insFail l st).seq
        (procLines sid parse N collName total el insFail (ls ++ l2)) = _
    rw [show procLines sid parse N collName total el insFail (l :: ls) st =
      (procLine sid parse N collName total el insFail l st).seq
        (procLines sid parse N collName total el insFail ls) from rfl]
    rw [Tr.seq_assoc]
    exact congrArg _ (funext fun st' => ih l2 st')

/-- The chunk loop is insensitive to chunk boundaries: running the chunks
through the buffer is the same as processing every complete line of the
whole stream content, provided the starting buffer holds no terminator. -/
theorem procChunks_spec (sid : Option String) (parse : String → Option Doc)
    (N : Nat) (collName : String) (total : Option Nat) (el : Nat → ℚ)
    (insFail : Option Nat) :
    ∀ (chunks : List String) (buf : List Char) (st : USt), '\n' ∉ buf →
      procChunks sid parse N collName total el insFail chunks buf st =
        procLines sid parse N collName total el insFail
          (extractLines (buf ++ (chunks.map String.data).flatten)).1 st := by
  intro chunks
  induction chunks with
  | nil =>
    intro buf st hbuf
    simp only [List.map_nil, List.flatten_nil]
    rw [List.append_nil, extractLines_of_no_nl buf hbuf]
    rfl
  | cons ch chs ih =>
    intro buf st hbuf
    rw [show ((ch :: chs).map String.data).flatten =
        ch.data ++ ((chs.map String.data).flatten) from by simp]
    rw [show buf ++ (ch.data ++ (chs.map String.data).flatten) =
        (buf ++ ch.data) ++ (chs.map String.data).flatten from by
      rw [List.append_assoc]]
    rw [extractLines_chain (buf ++ ch.data) ((chs.map String.data).flatten)]
    show (procLines sid parse N collName total el insFail
        (extractLines (buf ++ ch.data)).1 st).seq _ = _
    rw [procLines_append]
    refine congrArg _ (funext fun st' => ?_)
    exact ih (extractLines (buf ++ ch.data)).2 st'
      (extractLines_no_nl (buf ++ ch.data))

theorem insertsOf_insert_cons (c : String) (b : List Doc) (l : List Item) :
    insertsOf (Item.act (Action.insertMany c b) :: l) = b :: insertsOf l := by
  simp [insertsOf]

/-- Fault-free line processing: the final state and the inserted batches
are exactly the batch-accumulation mechanics applied to the accepted
records of the lines. -/
theorem procLines_run (sid : Option String) (parse : String → Option Doc)
    (N : Nat) (collName : String) (total : Option Nat) (el : Nat → ℚ) :
    ∀ (lines : List (List Char)) (st : USt),
      (procLines sid parse N collName total el none lines st).res =
        Except.ok ⟨(batchInserts N st.batch (acceptedOf parse lines)).2,
          st.imported +
            ((batchInserts N st.batch (acceptedOf parse lines)).1.map List.length).sum,
          st.calls + (batchInserts N st.batch (acceptedOf parse lines)).1.length⟩ ∧
      insertsOf (procLines sid parse N collName total el none lines st).trace =
        (batchInserts N st.batch (acceptedOf parse lines)).1 := by
  intro lines
  induction lines with
  | nil =>
    intro st
    constructor
    · show Except.ok st = _
      simp [acceptedOf, batchInserts]
    · show insertsOf [] = _
      simp [insertsOf, acceptedOf, batchInserts]
  | cons l ls ih =>
    intro st
    have hstep : procLines sid parse N collName total el none (l :: ls) st =
        (procLine sid parse N collName total el none l st).seq
          (procLines sid parse N collName total el none ls) := rfl
    by_cases h0 : (jsTrim l).isEmpty
    · have hacc : acceptedOf parse (l :: ls) = acceptedOf parse ls := by
        simp only [acceptedOf, List.filterMap_cons]
        rw [if_pos h0]
      have hline : procLine sid parse N collName total el none l st =
          ⟨[], Except.ok st⟩ := by
        unfold procLine
        rw [if_pos h0]
      rw [hstep, hline, Tr.pure_seq, hacc]
      exact ih st
    · cases hp : parse (List.asString (jsTrim l)) with
      | none =>
        have hacc : acceptedOf parse (l :: ls) = acceptedOf parse ls := by
          simp only [acceptedOf, List.filterMap_cons]
          rw [if_neg h0, hp]
        have hline : procLine sid parse N collName total el none l st =
            ⟨[], Except.ok st⟩ := by
          unfold procLine
          rw [if_neg h0, hp]
        rw [hstep, hline, Tr.pure_seq, hacc]
        exact ih st
      | some obj =>
        have hacc : acceptedOf parse (l :: ls) = obj :: acceptedOf parse ls := by
          simp only [acceptedOf, List.filterMap_cons]
          rw [if_neg h0, hp]
        rw [hstep, hacc]
        rw [show batchInserts N st.batch (obj :: acceptedOf parse ls) =
            (if N ≤ (st.batch ++ [obj]).length then
              ((st.batch ++ [obj]) :: (batchInserts N [] (acceptedOf parse ls)).1,
                (batchInserts N [] (acceptedOf parse ls)).2)
            else batchInserts N (st.batch ++ [obj]) (acceptedOf parse ls)) from by
          rw [batchInserts]]
        by_cases h1 : N ≤ (st.batch ++ [obj]).length
        · have hline : procLine sid parse N collName total el none l st =
              ⟨Item.act (Action.insertMany collName (st.batch ++ [obj])) ::
                emitTo sid (Event.progress collName
                  (st.imported + (st.batch ++ [obj]).length) total
                  (jsPercentN (st.imported + (st.batch ++ [obj]).length) total)
                  (speedOf (st.imported + (st.batch ++ [obj]).length) (el st.calls))
                  (jsEtaN (st.imported + (st.batch ++ [obj]).length) total
                    (speedOf (st.imported + (st.batch ++ [obj]).length) (el st.calls)))),
                Except.ok ⟨[], st.imported + (st.batch ++ [obj]).length,
                  st.calls + 1⟩⟩ := by
            unfold procLine
            rw [if_neg h0, hp]
            simp only [if_pos h1]
            rw [if_neg (by simp : ¬(none : Option Nat) = some st.calls)]
          rw [hline]
          simp only [if_pos h1]
          obtain ⟨ihr, ihi⟩ := ih ⟨[], st.imported + (st.batch ++ [obj]).length,
            st.calls + 1⟩
          constructor
          · show (procLines sid parse N collName total el none ls
                ⟨[], st.imported + (st.batch ++ [obj]).length, st.calls + 1⟩).res = _
            rw [ihr]
            simp only [Except.ok.injEq, USt.mk.injEq]
            refine ⟨trivial, ?_, ?_⟩
            · simp only [List.map_cons, List.sum_cons]
              omega
            · simp only [List.length_cons]
              omega
          · show insertsOf ((Item.act (Action.insertMany collName (st.batch ++ [obj])) ::
                emitTo sid (Event.progress collName
                  (st.imported + (st.batch ++ [obj]).length) total
                  (jsPercentN (st.imported + (st.batch ++ [obj]).length) total)
                  (speedOf (st.imported + (st.batch ++ [obj]).length) (el st.calls))
                  (jsEtaN (st.imported + (st.batch ++ [obj]).length) total
                    (speedOf (st.imported + (st.batch ++ [obj]).length) (el st.calls))))) ++
                (procLines sid parse N collName total el none ls
                  ⟨[], st.imported + (st.batch ++ [obj]).length, st.calls + 1⟩).trace) = _
            rw [List.cons_append, insertsOf_insert_cons, insertsOf_emitTo, ihi]
        · have hline : procLine sid parse N collName total el none l st =
              ⟨[], Except.ok ⟨st.batch ++ [obj], st.imported, st.calls⟩⟩ := by
            unfold procLine
            rw [if_neg h0, hp]
            simp only [if_neg h1]
          rw [hline, Tr.pure_seq]
          simp only [if_neg h1]
          exact ih ⟨st.batch ++ [obj], st.imported, st.calls⟩

/-- The end-of-stream flush: one final insert when the pending batch is
nonempty, none otherwise; the result is the final `importedCount`. -/
theorem finishFile_run (sid : Option String) (collName : String)
    (total : Option Nat) (el : Nat → ℚ) (st : USt) :
    (finishFile sid collName total el none st).res =
      Except.ok (st.imported + st.batch.length) ∧
    insertsOf (finishFile sid collName total el none st).trace =
      (if st.batch.isEmpty then [] else [st.batch]) := by
  unfold finishFile
  by_cases h0 : st.batch.isEmpty
  · rw [if_pos h0, if_pos h0]
    have hb : st.batch = [] := List.isEmpty_iff.mp h0
    constructor
    · simp [hb]
    · simp [insertsOf]
  · rw [if_neg h0, if_neg h0]
    rw [if_neg (by simp : ¬(none : Option Nat) = some st.calls)]
    constructor
    · rfl
    · show insertsOf (Item.act (Action.insertMany collName st.batch) ::
        emitTo sid (Event.progress collName (st.imported + st.batch.length) total
          (jsPercentN (st.imported + st.batch.length) total)
          (speedOf (st.imported + st.batch.length) (el st.calls))
          (jsEtaN (st.imported + st.batch.length) total
            (speedOf (st.imported + st.batch.length) (el st.calls))))) = _
      rw [insertsOf_insert_cons]
      cases sid <;> simp [emitTo, insertsOf]


theorem batchInserts_flatten (N : Nat) :
    ∀ (ds b : List Doc),
      ((batchInserts N b ds).1).flatten ++ (batchInserts N b ds).2 = b ++ ds := by
  intro ds
  induction ds with
  | nil => intro b; simp [batchInserts]
  | cons d ds' ih =>
    intro b
    rw [batchInserts]
    by_cases h1 : N ≤ (b ++ [d]).length
    · simp only [if_pos h1]
      rw [List.flatten_cons, List.append_assoc, ih []]
      simp
    · simp only [if_neg h1]
      rw [ih (b ++ [d])]
      simp

theorem batchInserts_length (N : Nat) (ds b : List Doc) :
    (((batchInserts N b ds).1).map List.length).sum +
      (batchInserts N b ds).2.length = b.length + ds.length := by
  have h := congrArg List.length (batchInserts_flatten N ds b)
  simpa [List.length_flatten] using h

theorem cursorBatches_prepend (N : Nat) (hN : 1 ≤ N) :
    ∀ (xs ys : List Doc), xs.length = N →
      cursorBatches N (xs ++ ys) = xs :: cursorBatches N ys := by
  intro xs ys hlen
  cases xs with
  | nil => simp at hlen; omega
  | cons x xt =>
    rw [List.cons_append, cursorBatches]
    have hxt : xt.length = N - 1 := by
      simp at hlen; omega
    rw [List.take_left' hxt, List.drop_left' hxt]

/-- The import batch-accumulation mechanics produce exactly the cursor
batches of the accepted records: the handed-off full batches followed by
the final sub-threshold batch when nonempty. -/
theorem batchInserts_cursor (N : Nat) (hN : 1 ≤ N) :
    ∀ (ds b : List Doc), b.length < N →
      (batchInserts N b ds).1 ++
        (if (batchInserts N b ds).2.isEmpty then []
          else [(batchInserts N b ds).2]) = cursorBatches N (b ++ ds) := by
  intro ds
  induction ds with
  | nil =>
    intro b hb
    rw [batchInserts]
    cases b with
    | nil => simp [cursorBatches]
    | cons x r =>
      simp only [List.isEmpty_cons, List.nil_append, List.append_nil]
      rw [cursorBatches]
      have hr : r.length ≤ N - 1 := by
        simp at hb; omega
      rw [List.take_of_length_le hr, List.drop_eq_nil_of_le hr, cursorBatches]
      simp
  | cons d ds' ih =>
    intro b hb
    rw [batchInserts]
    by_cases h1 : N ≤ (b ++ [d]).length
    · simp only [if_pos h1]
      have hlen : (b ++ [d]).length = N := by
        simp at h1 ⊢; omega
      rw [show b ++ d :: ds' = (b ++ [d]) ++ ds' from by simp]
      rw [cursorBatches_prepend N hN (b ++ [d]) ds' hlen]
      rw [List.cons_append]
      have := ih [] (by simpa using hN)
      rw [List.nil_append] at this
      rw [this]
    · simp only [if_neg h1]
      have hblen : (b ++ [d]).length < N := by
        simp at h1 ⊢; omega
      rw [show b ++ d :: ds' = (b ++ [d]) ++ ds' from by simp]
      exact ih (b ++ [d]) hblen

theorem noError_nil : NoError [] := by
  intro m h
  simp at h

theorem noError_append {a b : List Item} (ha : NoError a) (hb : NoError b) :
    NoError (a ++ b) := by
  intro m h
  rcases List.mem_append.mp h with h1 | h1
  · exact ha m h1
  · exact hb m h1

theorem noError_act_cons {l : List Item} (a : Action) (hl : NoError l) :
    NoError (Item.act a :: l) := by
  intro m h
  rcases List.mem_cons.mp h with h1 | h1
  · exact Item.noConfusion h1
  · exact hl m h1

theorem noError_emitTo {sid : Option String} {e : Event}
    (he : ∀ m : String, e ≠ Event.jobError m) : NoError (emitTo sid e) := by
  intro m h
  cases sid with
  | none => simp [emitTo] at h
  | some s =>
    simp only [emitTo, List.mem_singleton] at h
    exact he m (Item.ev.inj h).symm

theorem noError_seq {α β : Type} {a : Tr α} {f : α → Tr β}
    (ha : NoError a.trace) (hf : ∀ x, NoError (f x).trace) :
    NoError (a.seq f).trace := by
  unfold Tr.seq
  cases a.res with
  | error m => exact ha
  | ok x => exact noError_append ha (hf x)

theorem backupLoop_noError (sid : Option String) (N t : Nat) (name : String)
    (el : Nat → ℚ) :
    ∀ (docs : List Doc) (wf : Bool) (step done : Nat),
      NoError (backupLoop sid N t name el step done docs wf).trace := by
  intro docs
  induction docs using cursorBatches.induct N with
  | case1 =>
    intro wf step done
    rw [backupLoop]
    cases wf <;> simp <;> exact noError_nil
  | case2 d rest ih =>
    intro wf step done
    rw [backupLoop]
    by_cases hc : (d :: rest).length < N ∧ wf = true
    · rw [if_pos hc]; exact noError_nil
    · rw [if_neg hc]
      refine noError_act_cons _ (noError_append ?_ (ih wf _ _))
      exact noError_emitTo fun m h => Event.noConfusion h

theorem transferLoop_noError (sid : Option String) (N t : Nat) (name : String)
    (el : Nat → ℚ) (insFail : Option Nat) :
    ∀ (docs : List Doc) (wf : Bool) (step done : Nat),
      NoError (transferLoop sid N t name el insFail step done docs wf).trace := by
  intro docs
  induction docs using cursorBatches.induct N with
  | case1 =>
    intro wf step done
    rw [transferLoop]
    cases wf <;> simp <;> exact noError_nil
  | case2 d rest ih =>
    intro wf step done
    rw [transferLoop]
    by_cases hc : (d :: rest).length < N ∧ wf = true
    · rw [if_pos hc]; exact noError_nil
    · rw [if_neg hc]
      by_cases hf : insFail = some step
      · rw [if_pos hf]; exact noError_act_cons _ noError_nil
      · rw [if_neg hf]
        refine noError_act_cons _ (noError_append ?_ (ih wf _ _))
        exact noError_emitTo fun m h => Event.noConfusion h

theorem procLine_noError (sid : Option String) (parse : String → Option Doc)
    (N : Nat) (collName : String) (total : Option Nat) (el : Nat → ℚ)
    (insFail : Option Nat) (line : List Char) (st : USt) :
    NoError (procLine sid parse N collName total el insFail line st).trace := by
  unfold procLine
  by_cases h0 : (jsTrim line).isEmpty
  · rw [if_pos h0]; exact noError_nil
  · rw [if_neg h0]
    cases parse (List.asString (jsTrim line)) with
    | none => exact noError_nil
    | some obj =>
      simp only
      by_cases h1 : N ≤ (st.batch ++ [obj]).length
      · rw [if_pos h1]
        by_cases h2 : insFail = some st.calls
        · rw [if_pos h2]; exact noError_act_cons _ noError_nil
        · rw [if_neg h2]
          refine noError_act_cons _ (noError_emitTo ?_)
          exact fun m h => Event.noConfusion h
      · rw [if_neg h1]; exact noError_nil

theorem procLines_noError (sid : Option String) (parse : String → Option Doc)
    (N : Nat) (collName : String) (total : Option Nat) (el : Nat → ℚ)
    (insFail : Option Nat) :
    ∀ (lines : List (List Char)) (st : USt),
      NoError (procLines sid parse N collName total el insFail lines st).trace := by
  intro lines
  induction lines with
  | nil => intro st; exact noError_nil
  | cons l ls ih =>
    intro st
    exact noError_seq (procLine_noError sid parse N collName total el insFail l st)
      fun st' => ih st'

theorem procChunks_noError (sid : Option String) (parse : String → Option Doc)
    (N : Nat) (collName : String) (total : Option Nat) (el : Nat → ℚ)
    (insFail : Option Nat) :
    ∀ (chunks : List String) (buf : List Char) (st : USt),
      NoError (procChunks sid parse N collName total el insFail chunks buf st).trace := by
  intro chunks
  induction chunks with
  | nil => intro buf st; exact noError_nil
  | cons ch chs ih =>
    intro buf st
    exact noError_seq (procLines_noError sid parse N collName total el insFail _ st)
      fun st' => ih _ st'

theorem finishFile_noError (sid : Option String) (collName : String)
    (total : Option Nat) (el : Nat → ℚ) (insFail : Option Nat) (st : USt) :
    NoError (finishFile sid collName total el insFail st).trace := by
  unfold finishFile
  by_cases h0 : st.batch.isEmpty
  · rw [if_pos h0]; exact noError_nil
  · rw [if_neg h0]
    by_cases h2 : insFail = some st.calls
    · rw [if_pos h2]; exact noError_act_cons _ noError_nil
    · rw [if_neg h2]
      refine noError_act_cons _ (noError_emitTo ?_)
      exact fun m h => Event.noConfusion h

theorem runBColl_noError (sid : Option String) (N : Nat) (el : Nat → ℚ)
    (idx : Nat) (c : BColl) : NoError (runBColl sid N el idx c).trace := by
  unfold runBColl
  cases hres : (backupLoop sid N (bTotal c) c.name el 0 0
      (cursorYield c.docs c.failAfter).1 (cursorYield c.docs c.failAfter).2).res with
  | error m =>
    simp only [hres]
    exact noError_append
      (noError_emitTo fun m h => Event.noConfusion h)
      (backupLoop_noError sid N (bTotal c) c.name el _ _ 0 0)
  | ok v =>
    simp only [hres]
    exact noError_append (noError_append
      (noError_emitTo fun m h => Event.noConfusion h)
      (backupLoop_noError sid N (bTotal c) c.name el _ _ 0 0))
      (noError_emitTo fun m h => Event.noConfusion h)

theorem runTColl_noError (sid : Option String) (N : Nat) (el : Nat → ℚ)
    (idx : Nat) (c : TColl) : NoError (runTColl sid N el idx c).trace := by
  unfold runTColl
  cases c.deleteRes with
  | error m => exact noError_act_cons _ noError_nil
  | ok _ =>
    cases hres : (transferLoop sid N (tTotal c) c.name el c.insertFailAt 0 0
        (cursorYield c.docs c.failAfter).1 (cursorYield c.docs c.failAfter).2).res with
    | error m =>
      simp only [hres]
      exact noError_act_cons _ (noError_append
        (noError_emitTo fun m h => Event.noConfusion h)
        (transferLoop_noError sid N (tTotal c) c.name el c.insertFailAt _ _ 0 0))
    | ok v =>
      simp only [hres]
      exact noError_act_cons _ (noError_append (noError_append
        (noError_emitTo fun m h => Event.noConfusion h)
        (transferLoop_noError sid N (tTotal c) c.name el c.insertFailAt _ _ 0 0))
        (noError_emitTo fun m h => Event.noConfusion h))

theorem runUFile_noError (sid : Option String) (parse : String → Option Doc)
    (N : Nat) (el : Nat → ℚ) (idx : Nat) (f : UFile) :
    NoError (runUFile sid parse N el idx f).trace := by
  unfold runUFile
  cases f.deleteRes with
  | error m => exact noError_act_cons _ noError_nil
  | ok _ =>
    have hbody : NoError ((procChunks sid parse N (stripExt f.name) (uTotal f) el
        f.insertFailAt f.chunks [] ⟨[], 0, 0⟩).seq
          (finishFile sid (stripExt f.name) (uTotal f) el f.insertFailAt)).trace :=
      noError_seq (procChunks_noError sid parse N (stripExt f.name) (uTotal f) el
        f.insertFailAt f.chunks [] ⟨[], 0, 0⟩)
        fun st => finishFile_noError sid (stripExt f.name) (uTotal f) el
          f.insertFailAt st
    cases hres : ((procChunks sid parse N (stripExt f.name) (uTotal f) el
        f.insertFailAt f.chunks [] ⟨[], 0, 0⟩).seq
          (finishFile sid (stripExt f.name) (uTotal f) el f.insertFailAt)).res with
    | error m =>
      simp only [hres]
      exact noError_act_cons _ (noError_append
        (noError_emitTo fun m h => Event.noConfusion h) hbody)
    | ok v =>
      simp only [hres]
      exact noError_act_cons _ (noError_append (noError_append
        (noError_emitTo fun m h => Event.noConfusion h) hbody)
        (noError_emitTo fun m h => Event.noConfusion h))

theorem runSeq_noError {α : Type} (f : Nat → α → Tr Unit)
    (hf : ∀ idx c, NoError (f idx c).trace) :
    ∀ (cs : List α) (idx : Nat), NoError (runSeq f idx cs).trace := by
  intro cs
  induction cs with
  | nil => intro idx; exact noError_nil
  | cons c rest ih =>
    intro idx
    exact noError_seq (hf idx c) fun _ => ih (idx + 1)


/-- The number of accepted records is the number of lines that trim
nonempty and decode successfully. -/
theorem acceptedOf_length (parse : String → Option Doc) :
    ∀ lines : List (List Char),
      (acceptedOf parse lines).length =
        lines.countP (fun l =>
          !(jsTrim l).isEmpty && (parse (List.asString (jsTrim l))).isSome) := by
  intro lines
  induction lines with
  | nil => simp [acceptedOf]
  | cons l ls ih =>
    unfold acceptedOf at ih ⊢
    rw [List.filterMap_cons, List.countP_cons]
    by_cases h0 : (jsTrim l).isEmpty
    · rw [if_pos h0]
      simp only [h0, Bool.not_true, Bool.false_and, Bool.false_eq_true,
        if_false, Nat.add_zero]
      exact ih
    · rw [if_neg h0]
      rw [Bool.not_eq_true] at h0
      cases hp : parse (List.asString (jsTrim l)) with
      | none => simpa [h0] using ih
      | some obj => simpa [h0] using ih

/-- Fault-free import of one file: the run succeeds, the inserted batches
are exactly the cursor batches of the accepted records of the complete
lines, and the trace has the per-collection shape ending in
`upload-collection-done` with `importedCount` = number of accepted
records. -/
theorem runUFile_run (sid : Option String) (parse : String → Option Doc)
    (N : Nat) (el : Nat → ℚ) (idx : Nat) (hN : 1 ≤ N) (f : UFile)
    (hdel : f.deleteRes = Except.ok ()) (hins : f.insertFailAt = none) :
    (runUFile sid parse N el idx f).res = Except.ok () ∧
    insertsOf (runUFile sid parse N el idx f).trace =
      cursorBatches N (acceptedOf parse (extractLines (fileData f)).1) ∧
    (runUFile sid parse N el idx f).trace =
      Item.act (Action.deleteMany (stripExt f.name)) ::
        (emitTo sid (Event.collectionStart (stripExt f.name) idx (uTotal f)) ++
          ((procChunks sid parse N (stripExt f.name) (uTotal f) el none
              f.chunks [] ⟨[], 0, 0⟩).seq
            (finishFile sid (stripExt f.name) (uTotal f) el none)).trace ++
          emitTo sid (Event.collectionDone (stripExt f.name)
            (acceptedOf parse (extractLines (fileData f)).1).length)) := by
  have hchunks : procChunks sid parse N (stripExt f.name) (uTotal f) el none
      f.chunks [] ⟨[], 0, 0⟩ =
        procLines sid parse N (stripExt f.name) (uTotal f) el none
          (extractLines (fileData f)).1 ⟨[], 0, 0⟩ := by
    rw [procChunks_spec sid parse N (stripExt f.name) (uTotal f) el none
      f.chunks [] ⟨[], 0, 0⟩ (by simp)]
    rw [List.nil_append]
    rfl
  obtain ⟨hres1, hins1⟩ := procLines_run sid parse N (stripExt f.name)
    (uTotal f) el (extractLines (fileData f)).1 ⟨[], 0, 0⟩
  have hfin := finishFile_run sid (stripExt f.name) (uTotal f) el
    ⟨(batchInserts N [] (acceptedOf parse (extractLines (fileData f)).1)).2,
      0 + ((batchInserts N []
        (acceptedOf parse (extractLines (fileData f)).1)).1.map List.length).sum,
      0 + (batchInserts N []
        (acceptedOf parse (extractLines (fileData f)).1)).1.length⟩
  have hblen := batchInserts_length N
    (acceptedOf parse (extractLines (fileData f)).1) []
  have hbodyres : ((procChunks sid parse N (stripExt f.name) (uTotal f) el none
      f.chunks [] ⟨[], 0, 0⟩).seq
        (finishFile sid (stripExt f.name) (uTotal f) el none)).res =
      Except.ok (acceptedOf parse (extractLines (fileData f)).1).length := by
    rw [hchunks]
    unfold Tr.seq
    rw [hres1]
    simp only
    rw [hfin.1]
    simp only [Except.ok.injEq]
    simp only [List.length_nil, Nat.zero_add] at hblen ⊢
    omega
  have hbodyins : insertsOf ((procChunks sid parse N (stripExt f.name)
      (uTotal f) el none f.chunks [] ⟨[], 0, 0⟩).seq
        (finishFile sid (stripExt f.name) (uTotal f) el none)).trace =
      cursorBatches N (acceptedOf parse (extractLines (fileData f)).1) := by
    rw [hchunks]
    unfold Tr.seq
    rw [hres1]
    simp only
    rw [insertsOf_append, hins1, hfin.2]
    have := batchInserts_cursor N hN
      (acceptedOf parse (extractLines (fileData f)).1) [] (by simpa using hN)
    rw [List.nil_append] at this
    exact this
  have hshape : runUFile sid parse N el idx f =
      ⟨Item.act (Action.deleteMany (stripExt f.name)) ::
        (emitTo sid (Event.collectionStart (stripExt f.name) idx (uTotal f)) ++
          ((procChunks sid parse N (stripExt f.name) (uTotal f) el none
              f.chunks [] ⟨[], 0, 0⟩).seq
            (finishFile sid (stripExt f.name) (uTotal f) el none)).trace ++
          emitTo sid (Event.collectionDone (stripExt f.name)
            (acceptedOf parse (extractLines (fileData f)).1).length)),
        Except.ok ()⟩ := by
    unfold runUFile
    rw [hdel, hins]
    simp only [hbodyres]
  refine ⟨?_, ?_, ?_⟩
  · rw [hshape]
  · rw [hshape]
    show insertsOf (Item.act (Action.deleteMany (stripExt f.name)) :: _) = _
    rw [show ∀ l : List Item, insertsOf (Item.act (Action.deleteMany
      (stripExt f.name)) :: l) = insertsOf l from fun l => by simp [insertsOf]]
    rw [List.append_assoc, insertsOf_emitTo, insertsOf_append, hbodyins]
    have : insertsOf (emitTo sid (Event.collectionDone (stripExt f.name)
        (acceptedOf parse (extractLines (fileData f)).1).length)) = [] := by
      cases sid <;> simp [emitTo, insertsOf]
    rw [this, List.append_nil]
  · rw [hshape]

/-- C3: during import, a line whose trimmed content fails JSON decoding is
silently skipped — only successfully decoded nonempty lines are counted
and inserted, the final `importedCount` is exactly the number of accepted
lines, and no `*-error` event is raised. -/
theorem claim_C3 (s : String) (parse : String → Option Doc) (N : Nat)
    (el : Nat → ℚ) (idx : Nat) (hN : 1 ≤ N) (f : UFile)
    (hdel : f.deleteRes = Except.ok ()) (hins : f.insertFailAt = none) :
    NoError (runUFile (some s) parse N el idx f).trace ∧
    (acceptedOf parse (extractLines (fileData f)).1).length =
      (extractLines (fileData f)).1.countP
        (fun l => !(jsTrim l).isEmpty && (parse (List.asString (jsTrim l))).isSome) ∧
    (insertsOf (runUFile (some s) parse N el idx f).trace).flatten =
      acceptedOf parse (extractLines (fileData f)).1 ∧
    Item.ev (Event.collectionDone (stripExt f.name)
      (acceptedOf parse (extractLines (fileData f)).1).length) ∈
        (runUFile (some s) parse N el idx f).trace := by
  obtain ⟨hres, hins2, hshape⟩ :=
    runUFile_run (some s) parse N el idx hN f hdel hins
  refine ⟨runUFile_noError (some s) parse N el idx f, ?_, ?_, ?_⟩
  · exact acceptedOf_length parse (extractLines (fileData f)).1
  · rw [hins2, cursorBatches_join]
  · rw [hshape]
    refine List.mem_cons_of_mem _ (List.mem_append_right _ ?_)
    simp [emitTo]

/-- C3 witness: an import file of 10 well-formed and 2 malformed lines,
batch size 1000, yields `importedCount = 10` with no error event. -/
theorem claim_C3_witness :
    (1 : Nat) ≤ 1000 ∧
    (acceptedOf (fun s => if s = "g" then some 1 else none)
      (extractLines (fileData ⟨"users.ndjson",
        ["g\ng\ng\ng\ng\ng\ng\ng\ng\ng\nb\nb\n"], true,
        Except.ok (), none⟩)).1).length = 10 ∧
    NoError (runUFile (some "sock") (fun s => if s = "g" then some 1 else none)
      1000 (fun _ => 0) 0 ⟨"users.ndjson",
        ["g\ng\ng\ng\ng\ng\ng\ng\ng\ng\nb\nb\n"], true,
        Except.ok (), none⟩).trace ∧
    Item.ev (Event.collectionDone "users" 10) ∈
      (runUFile (some "sock") (fun s => if s = "g" then some 1 else none)
        1000 (fun _ => 0) 0 ⟨"users.ndjson",
          ["g\ng\ng\ng\ng\ng\ng\ng\ng\ng\nb\nb\n"], true,
          Except.ok (), none⟩).trace := by
  have h := claim_C3 "sock" (fun s => if s = "g" then some 1 else none)
    1000 (fun _ => 0) 0 (by decide) ⟨"users.ndjson",
      ["g\ng\ng\ng\ng\ng\ng\ng\ng\ng\nb\nb\n"], true,
      Except.ok (), none⟩ rfl rfl
  have hlen : (acceptedOf (fun s => if s = "g" then some 1 else none)
      (extractLines (fileData ⟨"users.ndjson",
        ["g\ng\ng\ng\ng\ng\ng\ng\ng\ng\nb\nb\n"], true,
        Except.ok (), none⟩)).1).length = 10 := by decide
  refine ⟨by decide, hlen, h.1, ?_⟩
  have h4 := h.2.2.2
  rw [show stripExt "users.ndjson" = "users" from by decide] at h4
  rw [hlen] at h4
  exact h4


/-- C4: at end of the import stream, pending partial-buffer content that
never received a terminator is not parsed and not inserted — appending it
to the stream changes nothing — while the batches inserted are exactly the
cursor batches of the accepted records: all full except a single trailing
sub-threshold batch flushed once after the stream closes. -/
theorem claim_C4 (s : String) (parse : String → Option Doc) (N : Nat)
    (el : Nat → ℚ) (idx : Nat) (hN : 1 ≤ N) (f : UFile)
    (hdel : f.deleteRes = Except.ok ()) (hins : f.insertFailAt = none) :
    (runUFile (some s) parse N el idx f).res = Except.ok () ∧
    insertsOf (runUFile (some s) parse N el idx f).trace =
      cursorBatches N (acceptedOf parse (extractLines (fileData f)).1) ∧
    (∀ b ∈ (insertsOf (runUFile (some s) parse N el idx f).trace).dropLast,
      b.length = N) ∧
    (∀ tail : String, '\n' ∉ tail.data →
      runUFile (some s) parse N el idx
        ⟨f.name, f.chunks ++ [tail], f.countOk, f.deleteRes, f.insertFailAt⟩ =
        runUFile (some s) parse N el idx f) := by
  obtain ⟨hres, hins2, hshape⟩ :=
    runUFile_run (some s) parse N el idx hN f hdel hins
  refine ⟨hres, hins2, ?_, ?_⟩
  · rw [hins2]
    exact cursorBatches_dropLast_len N hN _
  · intro tail hnl
    have hfd : fileData ⟨f.name, f.chunks ++ [tail], f.countOk, f.deleteRes,
        f.insertFailAt⟩ = fileData f ++ tail.data := by
      simp [fileData]
    have hcount : countNewlines (fileData ⟨f.name, f.chunks ++ [tail],
        f.countOk, f.deleteRes, f.insertFailAt⟩) = countNewlines (fileData f) := by
      rw [hfd]
      unfold countNewlines
      rw [List.count_append, List.count_eq_zero.mpr hnl, Nat.add_zero]
    have htot : uTotal ⟨f.name, f.chunks ++ [tail], f.countOk, f.deleteRes,
        f.insertFailAt⟩ = uTotal f := by
      unfold uTotal
      rw [hcount]
    have hnl2 : '\n' ∉ (extractLines (fileData f)).2 ++ tail.data := by
      intro hmem
      rcases List.mem_append.mp hmem with h1 | h1
      · exact extractLines_no_nl (fileData f) h1
      · exact hnl h1
    have hlines : (extractLines (fileData ⟨f.name, f.chunks ++ [tail],
        f.countOk, f.deleteRes, f.insertFailAt⟩)).1 =
          (extractLines (fileData f)).1 := by
      rw [hfd, extractLines_chain, extractLines_of_no_nl _ hnl2]
      simp
    have hchunks : ∀ (total : Option Nat) (st : USt),
        procChunks (some s) parse N (stripExt f.name) total el f.insertFailAt
          (f.chunks ++ [tail]) [] st =
        procChunks (some s) parse N (stripExt f.name) total el f.insertFailAt
          f.chunks [] st := by
      intro total st
      rw [procChunks_spec (some s) parse N (stripExt f.name) total el
        f.insertFailAt (f.chunks ++ [tail]) [] st (by simp)]
      rw [procChunks_spec (some s) parse N (stripExt f.name) total el
        f.insertFailAt f.chunks [] st (by simp)]
      rw [List.nil_append, List.nil_append]
      rw [show ((f.chunks ++ [tail]).map String.data).flatten =
        fileData ⟨f.name, f.chunks ++ [tail], f.countOk, f.deleteRes,
          f.insertFailAt⟩ from rfl]
      rw [show (f.chunks.map String.data).flatten = fileData f from rfl]
      rw [hlines]
    show runUFile (some s) parse N el idx ⟨f.name, f.chunks ++ [tail],
      f.countOk, f.deleteRes, f.insertFailAt⟩ = runUFile (some s) parse N el idx f
    unfold runUFile
    dsimp only
    rw [htot, hchunks (uTotal f) ⟨[], 0, 0⟩]

/-- C4 witness: a 2-chunk file whose second chunk ends mid-line, batch
size 2; the run succeeds and the trailing partial line is dropped. -/
theorem claim_C4_witness :
    (1 : Nat) ≤ 2 ∧
    (runUFile (some "sock") (fun t => if t = "x" then some 1 else some 2) 2
      (fun _ => 0) 0
      ⟨"a.ndjson", ["x\ny", "\nz"], true, Except.ok (), none⟩).res =
        Except.ok () :=
  ⟨by decide, (claim_C4 "sock" (fun t => if t = "x" then some 1 else some 2) 2
    (fun _ => 0) 0 (by decide)
    ⟨"a.ndjson", ["x\ny", "\nz"], true, Except.ok (), none⟩ rfl rfl).1⟩


/-- A sequential collection loop that throws stops at the first failing
element: everything before it succeeded, and nothing after it contributes
to the trace. -/
theorem runSeq_error {α : Type} (f : Nat → α → Tr Unit) :
    ∀ (cs : List α) (idx : Nat) (m : String),
      (runSeq f idx cs).res = Except.error m →
      ∃ pre c post, cs = pre ++ c :: post ∧
        (runSeq f idx pre).res = Except.ok () ∧
        (f (idx + pre.length) c).res = Except.error m ∧
        (runSeq f idx cs).trace =
          (runSeq f idx pre).trace ++ (f (idx + pre.length) c).trace := by
  intro cs
  induction cs with
  | nil =>
    intro idx m h
    exact absurd h (by simp [runSeq])
  | cons c rest ih =>
    intro idx m h
    have hstep : runSeq f idx (c :: rest) =
        (f idx c).seq fun _ => runSeq f (idx + 1) rest := rfl
    cases hc : (f idx c).res with
    | error m' =>
      have hres : (runSeq f idx (c :: rest)).res = Except.error m' := by
        rw [hstep]; unfold Tr.seq; rw [hc]
      have hm : m' = m := by
        rw [h] at hres
        exact (Except.error.inj hres).symm
      subst hm
      refine ⟨[], c, rest, rfl, by simp [runSeq], ?_, ?_⟩
      · rw [show idx + ([] : List α).length = idx from by simp]
        exact hc
      · rw [hstep]
        unfold Tr.seq
        rw [hc]
        rw [show idx + ([] : List α).length = idx from by simp]
        simp [runSeq]
    | ok u =>
      have hres : (runSeq f idx (c :: rest)).res =
          (runSeq f (idx + 1) rest).res := by
        rw [hstep]; unfold Tr.seq; rw [hc]
      obtain ⟨pre, c', post, heq, hok, herr, htr⟩ :=
        ih (idx + 1) m (by rw [← hres]; exact h)
      refine ⟨c :: pre, c', post, by rw [heq]; rfl, ?_, ?_, ?_⟩
      · show ((f idx c).seq fun _ => runSeq f (idx + 1) pre).res = Except.ok ()
        unfold Tr.seq
        rw [hc]
        exact hok
      · rw [show idx + (c :: pre).length = (idx + 1) + pre.length from by
          simp; omega]
        exact herr
      · have htr1 : (runSeq f idx (c :: rest)).trace =
            (f idx c).trace ++ (runSeq f (idx + 1) rest).trace := by
          rw [hstep]; unfold Tr.seq; rw [hc]
        have htr2 : (runSeq f idx (c :: pre)).trace =
            (f idx c).trace ++ (runSeq f (idx + 1) pre).trace := by
          show ((f idx c).seq fun _ => runSeq f (idx + 1) pre).trace = _
          unfold Tr.seq; rw [hc]
        rw [htr1, htr2, htr, List.append_assoc]
        rw [show idx + (c :: pre).length = (idx + 1) + pre.length from by
          simp; omega]


/-- A fatal error during a backup job yields exactly one `backup-error`
event, last in the trace, and the collections after the first failing one
contribute nothing. -/
theorem backupHandler_abort (req : BackupReq) (st : BackupStore) (N : Nat)
    (el : Nat → ℚ) (s : String) (hsid : req.socketId = some s)
    (h500 : (backupHandler req st N el).status = 500) :
    (∃ evs m rest, (backupHandler req st N el).trace =
        evs ++ Item.ev (Event.jobError m) :: rest ∧
      (∀ m', Item.ev (Event.jobError m') ∉ evs) ∧ eventsOf rest = []) ∧
    (st.connect = Except.ok () →
      ∃ pre c post m, st.collections = pre ++ c :: post ∧
        (runBColls (some s) N el 0 pre).res = Except.ok () ∧
        (runBColl (some s) N el pre.length c).res = Except.error m ∧
        (backupHandler req st N el).trace =
          Item.act Action.connect ::
            (emitTo (some s) (Event.jobStart st.collections.length
              (st.collections.map BColl.name)) ++
            ((runBColls (some s) N el 0 pre).trace ++
              ((runBColl (some s) N el pre.length c).trace ++
                [Item.ev (Event.jobError m)])))) := by
  unfold backupHandler at h500 ⊢
  by_cases hval : falsy req.uri = true ∨ falsy req.dbName = true
  · rw [if_pos hval] at h500
    exact absurd h500 (by decide)
  · rw [if_neg hval] at h500 ⊢
    rw [hsid] at h500 ⊢
    cases hcon : st.connect with
    | error m =>
      refine ⟨⟨[Item.act Action.connect], m, [], by simp [emitTo], ?_, rfl⟩, ?_⟩
      · intro m' hmem
        simp at hmem
      · intro hok
        exact Except.noConfusion hok
    | ok u =>
      cases hbody : (runBColls (some s) N el 0 st.collections).res with
      | ok v =>
        rw [hcon] at h500
        rw [hbody] at h500
        simp at h500
      | error m =>
        obtain ⟨pre, c, post, heq, hok, herr, htr⟩ :=
          runSeq_error (runBColl (some s) N el) st.collections 0 m hbody
        simp only [Nat.zero_add] at herr htr
        constructor
        ·
          refine ⟨Item.act Action.connect ::
            (emitTo (some s) (Event.jobStart st.collections.length
              (st.collections.map BColl.name)) ++
              (runBColls (some s) N el 0 st.collections).trace), m, [],
            by simp [emitTo], ?_, rfl⟩
          intro m' hmem
          rcases List.mem_cons.mp hmem with h1 | h1
          · exact Item.noConfusion h1
          · rcases List.mem_append.mp h1 with h2 | h2
            · simp [emitTo] at h2
            · exact runSeq_noError (runBColl (some s) N el)
                (runBColl_noError (some s) N el) st.collections 0 m' h2
        · intro _
          refine ⟨pre, c, post, m, heq, hok, herr, ?_⟩
          have hB : (runBColls (some s) N el 0 st.collections).trace =
              (runBColls (some s) N el 0 pre).trace ++
                (runBColl (some s) N el pre.length c).trace := htr
          simp [emitTo, hB]


/-- A fatal error during a transfer job yields exactly one `transfer-error`
event, last in the trace, and the collections after the first failing one
contribute nothing. -/
theorem transferHandler_abort (req : TransferReq) (st : TransferStore)
    (N : Nat) (el : Nat → ℚ) (s : String) (hsid : req.socketId = some s)
    (h500 : (transferHandler req st N el).status = 500) :
    (∃ evs m rest, (transferHandler req st N el).trace =
        evs ++ Item.ev (Event.jobError m) :: rest ∧
      (∀ m', Item.ev (Event.jobError m') ∉ evs) ∧ eventsOf rest = []) ∧
    (st.srcConnect = Except.ok () → st.dstConnect = Except.ok () →
      ∃ pre c post m, st.collections = pre ++ c :: post ∧
        (runTColls (some s) N el 0 pre).res = Except.ok () ∧
        (runTColl (some s) N el pre.length c).res = Except.error m ∧
        (transferHandler req st N el).trace =
          Item.act Action.connect :: Item.act Action.connect ::
            (emitTo (some s) (Event.jobStart st.collections.length []) ++
              ((runTColls (some s) N el 0 pre).trace ++
                ((runTColl (some s) N el pre.length c).trace ++
                  [Item.ev (Event.jobError m)])))) := by
  unfold transferHandler at h500 ⊢
  by_cases hval : falsy req.srcUri = true ∨ falsy req.srcDb = true ∨
      falsy req.dstUri = true ∨ falsy req.dstDb = true
  · rw [if_pos hval] at h500
    exact absurd h500 (by decide)
  · rw [if_neg hval] at h500 ⊢
    rw [hsid] at h500 ⊢
    cases hsrc : st.srcConnect with
    | error m =>
      refine ⟨⟨[Item.act Action.connect], m, [], by simp [emitTo], ?_, rfl⟩, ?_⟩
      · intro m' hmem
        simp at hmem
      · intro hok _
        exact Except.noConfusion hok
    | ok u =>
      cases hdst : st.dstConnect with
      | error m =>
        refine ⟨⟨[Item.act Action.connect, Item.act Action.connect], m, [],
          by simp [emitTo], ?_, rfl⟩, ?_⟩
        · intro m' hmem
          simp at hmem
        · intro _ hok
          exact Except.noConfusion hok
      | ok w =>
        cases hbody : (runTColls (some s) N el 0 st.collections).res with
        | ok v =>
          rw [hsrc] at h500
          rw [hdst] at h500
          rw [hbody] at h500
          simp at h500
        | error m =>
          obtain ⟨pre, c, post, heq, hok, herr, htr⟩ :=
            runSeq_error (runTColl (some s) N el) st.collections 0 m hbody
          simp only [Nat.zero_add] at herr htr
          constructor
          ·
            refine ⟨Item.act Action.connect :: Item.act Action.connect ::
              (emitTo (some s) (Event.jobStart st.collections.length []) ++
                (runTColls (some s) N el 0 st.collections).trace), m, [],
              by simp [emitTo], ?_, rfl⟩
            intro m' hmem
            rcases List.mem_cons.mp hmem with h1 | h1
            · exact Item.noConfusion h1
            rcases List.mem_cons.mp h1 with h2 | h2
            · exact Item.noConfusion h2
            rcases List.mem_append.mp h2 with h3 | h3
            · simp [emitTo] at h3
            · exact runSeq_noError (runTColl (some s) N el)
                (runTColl_noError (some s) N el) st.collections 0 m' h3
          · intro _ _
            refine ⟨pre, c, post, m, heq, hok, herr, ?_⟩
            have hB : (runTColls (some s) N el 0 st.collections).trace =
                (runTColls (some s) N el 0 pre).trace ++
                  (runTColl (some s) N el pre.length c).trace := htr
            simp [emitTo, hB]

/-- A fatal error during an import job yields exactly one `upload-error`
event, followed only by the `finally` file removal, and the files after
the first failing one contribute nothing. -/
theorem uploadHandler_abort (req : UploadReq) (st : UploadStore)
    (parse : String → Option Doc) (N : Nat) (el : Nat → ℚ)
    (extractDir : String) (s fp : String) (hsid : req.socketId = some s)
    (hfile : req.file = some fp)
    (h500 : (uploadHandler req st parse N el extractDir).status = 500) :
    (∃ evs m rest, (uploadHandler req st parse N el extractDir).trace =
        evs ++ Item.ev (Event.jobError m) :: rest ∧
      (∀ m', Item.ev (Event.jobError m') ∉ evs) ∧ eventsOf rest = []) ∧
    (st.extractRes = Except.ok () → falsy req.uri = false →
      st.connect = Except.ok () →
      ∃ pre c post m,
        st.files.filter (fun f => isNdjson f.name) = pre ++ c :: post ∧
        (runUFiles (some s) parse N el 0 pre).res = Except.ok () ∧
        (runUFile (some s) parse N el pre.length c).res = Except.error m ∧
        (uploadHandler req st parse N el extractDir).trace =
          Item.act Action.extract :: Item.act Action.connect ::
            (emitTo (some s) (Event.jobStart
                (st.files.filter (fun f => isNdjson f.name)).length []) ++
              ((runUFiles (some s) parse N el 0 pre).trace ++
                ((runUFile (some s) parse N el pre.length c).trace ++
                  (Item.ev (Event.jobError m) ::
                    [Item.act (Action.fsRemove fp)]))))) := by
  unfold uploadHandler at h500 ⊢
  rw [hfile] at h500 ⊢
  rw [hsid] at h500 ⊢
  cases hext : st.extractRes with
  | error m =>
    refine ⟨⟨[Item.act Action.extract], m, [Item.act (Action.fsRemove fp)],
      by simp [emitTo], ?_, rfl⟩, ?_⟩
    · intro m' hmem
      simp at hmem
    · intro hok _ _
      exact Except.noConfusion hok
  | ok u =>
    rw [hext] at h500
    dsimp only at h500 ⊢
    by_cases huri : falsy req.uri = true
    · rw [if_pos huri] at h500 ⊢
      refine ⟨⟨[Item.act Action.extract], "Invalid connection string",
        [Item.act (Action.fsRemove fp)], by simp [emitTo], ?_, ?_⟩, ?_⟩
      · intro m' hmem
        simp at hmem
      · rfl
      · intro _ hfalse _
        rw [huri] at hfalse
        exact Bool.noConfusion hfalse
    · rw [if_neg huri] at h500 ⊢
      cases hcon : st.connect with
      | error m =>
        refine ⟨⟨[Item.act Action.extract, Item.act Action.connect], m,
          [Item.act (Action.fsRemove fp)], by simp [emitTo], ?_, rfl⟩, ?_⟩
        · intro m' hmem
          simp at hmem
        · intro _ _ hok
          exact Except.noConfusion hok
      | ok w =>
        cases hbody : (runUFiles (some s) parse N el 0
            (st.files.filter fun f => isNdjson f.name)).res with
        | ok v =>
          rw [hcon] at h500
          rw [hbody] at h500
          simp at h500
        | error m =>
          obtain ⟨pre, c, post, heq, hok, herr, htr⟩ :=
            runSeq_error (runUFile (some s) parse N el)
              (st.files.filter fun f => isNdjson f.name) 0 m hbody
          simp only [Nat.zero_add] at herr htr
          constructor
          ·
            refine ⟨Item.act Action.extract :: Item.act Action.connect ::
              (emitTo (some s) (Event.jobStart
                  (st.files.filter fun f => isNdjson f.name).length []) ++
                (runUFiles (some s) parse N el 0
                  (st.files.filter fun f => isNdjson f.name)).trace), m,
              [Item.act (Action.fsRemove fp)], by simp [emitTo], ?_, rfl⟩
            intro m' hmem
            rcases List.mem_cons.mp hmem with h1 | h1
            · exact Item.noConfusion h1
            rcases List.mem_cons.mp h1 with h2 | h2
            · exact Item.noConfusion h2
            rcases List.mem_append.mp h2 with h3 | h3
            · simp [emitTo] at h3
            · exact runSeq_noError (runUFile (some s) parse N el)
                (runUFile_noError (some s) parse N el)
                (st.files.filter fun f => isNdjson f.name) 0 m' h3
          · intro _ _ _
            refine ⟨pre, c, post, m, heq, hok, herr, ?_⟩
            have hB : (runUFiles (some s) parse N el 0
                (st.files.filter fun f => isNdjson f.name)).trace =
                (runUFiles (some s) parse N el 0 pre).trace ++
                  (runUFile (some s) parse N el pre.length c).trace := htr
            simp [emitTo, hB]


/-- C2: in every mode, a fatal store error mid-job makes the handler emit
exactly one `*-error` event for the job with no further events after it
(only the upload `finally` file removal follows it), and the collections
after the first failing one are never attempted — the whole job aborts. -/
theorem claim_C2 :
    (∀ (req : BackupReq) (st : BackupStore) (N : Nat) (el : Nat → ℚ)
        (s : String), req.socketId = some s →
      (backupHandler req st N el).status = 500 →
      (∃ evs m rest, (backupHandler req st N el).trace =
          evs ++ Item.ev (Event.jobError m) :: rest ∧
        (∀ m', Item.ev (Event.jobError m') ∉ evs) ∧ eventsOf rest = []) ∧
      (st.connect = Except.ok () →
        ∃ pre c post m, st.collections = pre ++ c :: post ∧
          (runBColls (some s) N el 0 pre).res = Except.ok () ∧
          (runBColl (some s) N el pre.length c).res = Except.error m ∧
          (backupHandler req st N el).trace =
            Item.act Action.connect ::
              (emitTo (some s) (Event.jobStart st.collections.length
                (st.collections.map BColl.name)) ++
              ((runBColls (some s) N el 0 pre).trace ++
                ((runBColl (some s) N el pre.length c).trace ++
                  [Item.ev (Event.jobError m)]))))) ∧
    (∀ (req : TransferReq) (st : TransferStore) (N : Nat) (el : Nat → ℚ)
        (s : String), req.socketId = some s →
      (transferHandler req st N el).status = 500 →
      (∃ evs m rest, (transferHandler req st N el).trace =
          evs ++ Item.ev (Event.jobError m) :: rest ∧
        (∀ m', Item.ev (Event.jobError m') ∉ evs) ∧ eventsOf rest = []) ∧
      (st.srcConnect = Except.ok () → st.dstConnect = Except.ok () →
        ∃ pre c post m, st.collections = pre ++ c :: post ∧
          (runTColls (some s) N el 0 pre).res = Except.ok () ∧
          (runTColl (some s) N el pre.length c).res = Except.error m ∧
          (transferHandler req st N el).trace =
            Item.act Action.connect :: Item.act Action.connect ::
              (emitTo (some s) (Event.jobStart st.collections.length []) ++
                ((runTColls (some s) N el 0 pre).trace ++
                  ((runTColl (some s) N el pre.length c).trace ++
                    [Item.ev (Event.jobError m)]))))) ∧
    (∀ (req : UploadReq) (st : UploadStore) (parse : String → Option Doc)
        (N : Nat) (el : Nat → ℚ) (extractDir : String) (s fp : String),
      req.socketId = some s → req.file = some fp →
      (uploadHandler req st parse N el extractDir).status = 500 →
      (∃ evs m rest, (uploadHandler req st parse N el extractDir).trace =
          evs ++ Item.ev (Event.jobError m) :: rest ∧
        (∀ m', Item.ev (Event.jobError m') ∉ evs) ∧ eventsOf rest = []) ∧
      (st.extractRes = Except.ok () → falsy req.uri = false →
        st.connect = Except.ok () →
        ∃ pre c post m,
          st.files.filter (fun f => isNdjson f.name) = pre ++ c :: post ∧
          (runUFiles (some s) parse N el 0 pre).res = Except.ok () ∧
          (runUFile (some s) parse N el pre.length c).res = Except.error m ∧
          (uploadHandler req st parse N el extractDir).trace =
            Item.act Action.extract :: Item.act Action.connect ::
              (emitTo (some s) (Event.jobStart
                  (st.files.filter (fun f => isNdjson f.name)).length []) ++
                ((runUFiles (some s) parse N el 0 pre).trace ++
                  ((runUFile (some s) parse N el pre.length c).trace ++
                    (Item.ev (Event.jobError m) ::
                      [Item.act (Action.fsRemove fp)])))))) :=
  ⟨fun req st N el s hsid h500 => backupHandler_abort req st N el s hsid h500,
   fun req st N el s hsid h500 => transferHandler_abort req st N el s hsid h500,
   fun req st parse N el extractDir s fp hsid hfile h500 =>
     uploadHandler_abort req st parse N el extractDir s fp hsid hfile h500⟩

/-- C2 witness: a transfer job whose first collection's `deleteMany`
throws answers 500 and the claim applies to it. -/
theorem claim_C2_witness :
    (TransferReq.mk (some "a") (some "b") (some "c") (some "d")
      (some "sock")).socketId = some "sock" ∧
    (transferHandler
      (TransferReq.mk (some "a") (some "b") (some "c") (some "d") (some "sock"))
      (TransferStore.mk (Except.ok ()) (Except.ok ())
        [TColl.mk "users" (Except.ok 3) [1, 2] none (Except.error "boom") none])
      1 (fun _ => 0)).status = 500 ∧
    (∃ evs m rest, (transferHandler
      (TransferReq.mk (some "a") (some "b") (some "c") (some "d") (some "sock"))
      (TransferStore.mk (Except.ok ()) (Except.ok ())
        [TColl.mk "users" (Except.ok 3) [1, 2] none (Except.error "boom") none])
      1 (fun _ => 0)).trace = evs ++ Item.ev (Event.jobError m) :: rest ∧
      (∀ m', Item.ev (Event.jobError m') ∉ evs) ∧ eventsOf rest = []) :=
  ⟨rfl, rfl,
    ((claim_C2.2.1
      (TransferReq.mk (some "a") (some "b") (some "c") (some "d") (some "sock"))
      (TransferStore.mk (Except.ok ()) (Except.ok ())
        [TColl.mk "users" (Except.ok 3) [1, 2] none (Except.error "boom") none])
      1 (fun _ => 0) "sock" rfl rfl).1)⟩


theorem noCleanup_nil : NoCleanup [] := by
  intro p h
  simp at h

theorem noCleanup_append {a b : List Item} (ha : NoCleanup a)
    (hb : NoCleanup b) : NoCleanup (a ++ b) := by
  intro p h
  rcases List.mem_append.mp h with h1 | h1
  · exact ha p h1
  · exact hb p h1

theorem noCleanup_act_cons {l : List Item} (a : Action)
    (hne : ∀ p, a ≠ Action.registerCleanup p) (hl : NoCleanup l) :
    NoCleanup (Item.act a :: l) := by
  intro p h
  rcases List.mem_cons.mp h with h1 | h1
  · exact hne p (Item.act.inj h1).symm
  · exact hl p h1

theorem noCleanup_emitTo (sid : Option String) (e : Event) :
    NoCleanup (emitTo sid e) := by
  intro p h
  cases sid with
  | none => simp [emitTo] at h
  | some s =>
    simp only [emitTo, List.mem_singleton] at h
    exact Item.noConfusion h

theorem noCleanup_seq {α β : Type} {a : Tr α} {f : α → Tr β}
    (ha : NoCleanup a.trace) (hf : ∀ x, NoCleanup (f x).trace) :
    NoCleanup (a.seq f).trace := by
  unfold Tr.seq
  cases a.res with
  | error m => exact ha
  | ok x => exact noCleanup_append ha (hf x)

theorem backupLoop_noCleanup (sid : Option String) (N t : Nat) (name : String)
    (el : Nat → ℚ) :
    ∀ (docs : List Doc) (wf : Bool) (step done : Nat),
      NoCleanup (backupLoop sid N t name el step done docs wf).trace := by
  intro docs
  induction docs using cursorBatches.induct N with
  | case1 =>
    intro wf step done
    rw [backupLoop]
    cases wf <;> simp <;> exact noCleanup_nil
  | case2 d rest ih =>
    intro wf step done
    rw [backupLoop]
    by_cases hc : (d :: rest).length < N ∧ wf = true
    · rw [if_pos hc]; exact noCleanup_nil
    · rw [if_neg hc]
      refine noCleanup_act_cons _ (fun p h => Action.noConfusion h)
        (noCleanup_append (noCleanup_emitTo _ _) (ih wf _ _))

theorem runBColl_noCleanup (sid : Option String) (N : Nat) (el : Nat → ℚ)
    (idx : Nat) (c : BColl) : NoCleanup (runBColl sid N el idx c).trace := by
  unfold runBColl
  cases hres : (backupLoop sid N (bTotal c) c.name el 0 0
      (cursorYield c.docs c.failAfter).1 (cursorYield c.docs c.failAfter).2).res with
  | error m =>
    simp only [hres]
    exact noCleanup_append (noCleanup_emitTo _ _)
      (backupLoop_noCleanup sid N (bTotal c) c.name el _ _ 0 0)
  | ok v =>
    simp only [hres]
    exact noCleanup_append (noCleanup_append (noCleanup_emitTo _ _)
      (backupLoop_noCleanup sid N (bTotal c) c.name el _ _ 0 0))
      (noCleanup_emitTo _ _)

theorem runSeq_noCleanup {α : Type} (f : Nat → α → Tr Unit)
    (hf : ∀ idx c, NoCleanup (f idx c).trace) :
    ∀ (cs : List α) (idx : Nat), NoCleanup (runSeq f idx cs).trace := by
  intro cs
  induction cs with
  | nil => intro idx; exact noCleanup_nil
  | cons c rest ih =>
    intro idx
    exact noCleanup_seq (hf idx c) fun _ => ih (idx + 1)

/-- The export handler never registers any cleanup. -/
theorem backupHandler_noCleanup (req : BackupReq) (st : BackupStore) (N : Nat)
    (el : Nat → ℚ) : NoCleanup (backupHandler req st N el).trace := by
  unfold backupHandler
  by_cases hval : falsy req.uri = true ∨ falsy req.dbName = true
  · rw [if_pos hval]
    exact noCleanup_nil
  · rw [if_neg hval]
    cases hcon : st.connect with
    | error m =>
      exact noCleanup_act_cons _ (fun p h => Action.noConfusion h)
        (noCleanup_emitTo _ _)
    | ok u =>
      cases hbody : (runBColls req.socketId N el 0 st.collections).res with
      | error m =>
        refine noCleanup_act_cons _ (fun p h => Action.noConfusion h)
          (noCleanup_append (noCleanup_emitTo _ _)
            (noCleanup_append
              (runSeq_noCleanup (runBColl req.socketId N el)
                (runBColl_noCleanup req.socketId N el) st.collections 0)
              (noCleanup_emitTo _ _)))
      | ok v =>
        refine noCleanup_act_cons _ (fun p h => Action.noConfusion h)
          (noCleanup_append (noCleanup_emitTo _ _)
            (noCleanup_append
              (runSeq_noCleanup (runBColl req.socketId N el)
                (runBColl_noCleanup req.socketId N el) st.collections 0)
              (noCleanup_act_cons _ (fun p h => Action.noConfusion h)
                (noCleanup_emitTo _ _))))

/-- C7 counterexample: a successful export job (200, `backup-done`
emitted) registers no cleanup at all — neither for the output directory
nor for the produced archive. -/
theorem counterexample_C7 :
    (backupHandler ⟨some "mongodb://u", some "db", some "sock"⟩
      ⟨Except.ok (), []⟩ 1 (fun _ => 0)).status = 200 ∧
    Item.ev Event.jobDone ∈ (backupHandler ⟨some "mongodb://u", some "db",
      some "sock"⟩ ⟨Except.ok (), []⟩ 1 (fun _ => 0)).trace ∧
    (∀ p, Item.act (Action.registerCleanup p) ∉
      (backupHandler ⟨some "mongodb://u", some "db", some "sock"⟩
        ⟨Except.ok (), []⟩ 1 (fun _ => 0)).trace) := by
  refine ⟨rfl, by decide, ?_⟩
  intro p hmem
  have htr : (backupHandler ⟨some "mongodb://u", some "db", some "sock"⟩
      ⟨Except.ok (), []⟩ 1 (fun _ => 0)).trace =
      [Item.act Action.connect, Item.ev (Event.jobStart 0 []),
        Item.act Action.zipArchive, Item.ev Event.jobDone] := rfl
  rw [htr] at hmem
  simp at hmem

/-- C7 (amended): export mode registers no cleanup of its artifacts at
all; import mode registers cleanup of the extracted directory and the
uploaded file immediately before emitting the job-done event (and the
`finally` block removes the uploaded file right away). -/
theorem claim_C7 :
    (∀ (req : BackupReq) (st : BackupStore) (N : Nat) (el : Nat → ℚ),
      NoCleanup (backupHandler req st N el).trace) ∧
    (∀ (req : UploadReq) (st : UploadStore) (parse : String → Option Doc)
        (N : Nat) (el : Nat → ℚ) (extractDir : String) (fp : String),
      req.file = some fp →
      (uploadHandler req st parse N el extractDir).status = 200 →
      ∃ pre, (uploadHandler req st parse N el extractDir).trace =
        pre ++ Item.act (Action.registerCleanup extractDir) ::
          Item.act (Action.registerCleanup fp) ::
          (emitTo req.socketId Event.jobDone ++
            [Item.act (Action.fsRemove fp)])) := by
  refine ⟨backupHandler_noCleanup, ?_⟩
  intro req st parse N el extractDir fp hfile h200
  unfold uploadHandler at h200 ⊢
  rw [hfile] at h200 ⊢
  cases hext : st.extractRes with
  | error m =>
    rw [hext] at h200
    simp at h200
  | ok u =>
    rw [hext] at h200
    dsimp only at h200 ⊢
    by_cases huri : falsy req.uri = true
    · rw [if_pos huri] at h200
      simp at h200
    · rw [if_neg huri] at h200 ⊢
      cases hcon : st.connect with
      | error m =>
        rw [hcon] at h200
        simp at h200
      | ok w =>
        cases hbody : (runUFiles req.socketId parse N el 0
            (st.files.filter fun f => isNdjson f.name)).res with
        | error m =>
          rw [hcon] at h200
          rw [hbody] at h200
          simp at h200
        | ok v =>
          refine ⟨Item.act Action.extract :: Item.act Action.connect ::
            (emitTo req.socketId (Event.jobStart
                (st.files.filter fun f => isNdjson f.name).length []) ++
              (runUFiles req.socketId parse N el 0
                (st.files.filter fun f => isNdjson f.name)).trace), ?_⟩
          simp

/-- C7 witness: a successful import job with no data files still registers
cleanup of the extracted directory and the uploaded file. -/
theorem claim_C7_witness :
    (UploadReq.mk (some "/tmp/upl") (some "mongodb://u") (some "db")
      (some "sock")).file = some "/tmp/upl" ∧
    (uploadHandler
      (UploadReq.mk (some "/tmp/upl") (some "mongodb://u") (some "db")
        (some "sock"))
      (UploadStore.mk (Except.ok ()) (Except.ok ()) [])
      (fun _ => none) 1 (fun _ => 0) "/tmp/extract").status = 200 ∧
    (∃ pre, (uploadHandler
      (UploadReq.mk (some "/tmp/upl") (some "mongodb://u") (some "db")
        (some "sock"))
      (UploadStore.mk (Except.ok ()) (Except.ok ()) [])
      (fun _ => none) 1 (fun _ => 0) "/tmp/extract").trace =
        pre ++ Item.act (Action.registerCleanup "/tmp/extract") ::
          Item.act (Action.registerCleanup "/tmp/upl") ::
          (emitTo (some "sock") Event.jobDone ++
            [Item.act (Action.fsRemove "/tmp/upl")])) :=
  ⟨rfl, rfl,
    claim_C7.2
      (UploadReq.mk (some "/tmp/upl") (some "mongodb://u") (some "db")
        (some "sock"))
      (UploadStore.mk (Except.ok ()) (Except.ok ()) [])
      (fun _ => none) 1 (fun _ => 0) "/tmp/extract" "/tmp/upl" rfl rfl⟩


/-- C8 counterexample: an upload request that omits the required `uri`
field is not rejected with a 4xx — extraction runs, the client
constructor throws, and the handler answers 500 after emitting an
`upload-error` event. -/
theorem counterexample_C8 :
    (uploadHandler ⟨some "/tmp/upl", none, some "db", some "sock"⟩
      ⟨Except.ok (), Except.ok (), []⟩ (fun _ => none) 1 (fun _ => 0)
      "/tmp/extract").status = 500 ∧
    ¬ (400 ≤ (uploadHandler ⟨some "/tmp/upl", none, some "db", some "sock"⟩
      ⟨Except.ok (), Except.ok (), []⟩ (fun _ => none) 1 (fun _ => 0)
      "/tmp/extract").status ∧
      (uploadHandler ⟨some "/tmp/upl", none, some "db", some "sock"⟩
        ⟨Except.ok (), Except.ok (), []⟩ (fun _ => none) 1 (fun _ => 0)
        "/tmp/extract").status < 500) ∧
    Item.ev (Event.jobError "Invalid connection string") ∈
      (uploadHandler ⟨some "/tmp/upl", none, some "db", some "sock"⟩
        ⟨Except.ok (), Except.ok (), []⟩ (fun _ => none) 1 (fun _ => 0)
        "/tmp/extract").trace := by
  refine ⟨rfl, ?_, by decide⟩
  intro h
  have := h.2
  simp only [show (uploadHandler ⟨some "/tmp/upl", none, some "db",
    some "sock"⟩ ⟨Except.ok (), Except.ok (), []⟩ (fun _ => none) 1
    (fun _ => 0) "/tmp/extract").status = 500 from rfl] at this
  omega

/-- C8 (amended): backup and transfer validate their required fields and
answer 400 with no events and no store connection; upload validates only
the `file` field (400, no events).  A missing or empty `uri` on upload is
not validated: extraction still runs and the client-constructor failure is
caught, answering 500 with a single `upload-error` event — and still no
store connection.  A missing `dbName` on upload is not validated at all. -/
theorem claim_C8 :
    (∀ (req : BackupReq) (st : BackupStore) (N : Nat) (el : Nat → ℚ),
      falsy req.uri = true ∨ falsy req.dbName = true →
      backupHandler req st N el = ⟨400, []⟩) ∧
    (∀ (req : TransferReq) (st : TransferStore) (N : Nat) (el : Nat → ℚ),
      falsy req.srcUri = true ∨ falsy req.srcDb = true ∨
        falsy req.dstUri = true ∨ falsy req.dstDb = true →
      transferHandler req st N el = ⟨400, []⟩) ∧
    (∀ (req : UploadReq) (st : UploadStore) (parse : String → Option Doc)
        (N : Nat) (el : Nat → ℚ) (extractDir : String),
      req.file = none →
      uploadHandler req st parse N el extractDir = ⟨400, []⟩) ∧
    (∀ (req : UploadReq) (st : UploadStore) (parse : String → Option Doc)
        (N : Nat) (el : Nat → ℚ) (extractDir : String) (fp : String),
      req.file = some fp → st.extractRes = Except.ok () →
      falsy req.uri = true →
      uploadHandler req st parse N el extractDir =
        ⟨500, Item.act Action.extract ::
          (emitTo req.socketId (Event.jobError "Invalid connection string") ++
            [Item.act (Action.fsRemove fp)])⟩ ∧
      Item.act Action.connect ∉
        (uploadHandler req st parse N el extractDir).trace) := by
  refine ⟨?_, ?_, ?_, ?_⟩
  · intro req st N el h
    unfold backupHandler
    rw [if_pos h]
  · intro req st N el h
    unfold transferHandler
    rw [if_pos h]
  · intro req st parse N el extractDir h
    unfold uploadHandler
    rw [h]
  · intro req st parse N el extractDir fp hfile hext huri
    have heq : uploadHandler req st parse N el extractDir =
        ⟨500, Item.act Action.extract ::
          (emitTo req.socketId (Event.jobError "Invalid connection string") ++
            [Item.act (Action.fsRemove fp)])⟩ := by
      unfold uploadHandler
      rw [hfile, hext]
      dsimp only
      rw [if_pos huri]
    refine ⟨heq, ?_⟩
    rw [heq]
    intro hmem
    rcases List.mem_cons.mp hmem with h1 | h1
    · exact Action.noConfusion (Item.act.inj h1)
    · rcases List.mem_append.mp h1 with h2 | h2
      · cases hs : req.socketId with
        | none => rw [hs] at h2; simp [emitTo] at h2
        | some s => rw [hs] at h2; simp [emitTo] at h2
      · simp at h2

/-- C8 witness: a backup request with an empty `uri` is rejected with 400
and an empty trace. -/
theorem claim_C8_witness :
    falsy (some "") = true ∧
    backupHandler ⟨some "", some "db", some "sock"⟩
      ⟨Except.ok (), []⟩ 1 (fun _ => 0) = ⟨400, []⟩ :=
  ⟨by decide, claim_C8.1 ⟨some "", some "db", some "sock"⟩
    ⟨Except.ok (), []⟩ 1 (fun _ => 0) (Or.inl (by decide))⟩

end MiniToolz
